import Mathlib

/-!
# Harbor UI: tag metadata aggregation and the trust-aware deletion guard

A shallow embedding of `src/ui/api/repository.go`: the functions `getSignatures`,
`getScanOverview`, `getV2Manifest`, `getDetailedTags`, `assemble`, `getSimpleTags`
and the handler `RepositoryAPI.Delete`, followed by theorems about them.

Conventions of the embedding.

* A Go result `(x, err)` whose first component is a slice or a map is a pair
  `Option _ × Option GoError`: `none` on the left is Go's `nil`, `none` on the
  right is a `nil` error.  Calls into collaborators outside this file (registry
  client, trust service, decoders) return `Except GoError _`; the code never reads
  their values when the error is set.
* The collaborators are fields of `Env` (process configuration, trust service, scan
  store, decoders) and `Repository` (the registry client).
* A handler produces an `Outcome` and the list of calls it made to `DeleteTag`.
* Of `src/ui/proxy` the sources hold only the test file: `MatchPullManifest` and
  `matchNotaryDigest` are modelled from sections 4.1 and 4.3 of the specification and
  checked against the calls of the tests.
-/

namespace Harbor

deriving instance DecidableEq for Except

/-- Go `[]byte`. -/
abbrev Bytes := List Nat

/-- Go error values as this file inspects them: the type assertion
`err.(*registry_error.Error)` succeeds exactly on `registry`, whose fields
`StatusCode` and `Detail` the code reads. -/
inductive GoError where
  | registry (StatusCode : Nat) (Detail : String)
  | other (text : String)
deriving DecidableEq, Repr

/-- The method `Error()` of an error value, used where the code formats an error into a
response body. -/
def GoError.Error : GoError → String
  | .registry c d => toString c ++ " " ++ d
  | .other s => s

/-- Constant `http.StatusNotFound`. -/
def StatusNotFound : Nat := 404

/-- Constant `http.StatusPreconditionFailed`. -/
def StatusPreconditionFailed : Nat := 412

/-- Constant `http.StatusInternalServerError`. -/
def StatusInternalServerError : Nat := 500

/-- Constant `models.JobFinished`, the status of a scan job that has completed. -/
def JobFinished : String := "finished"

/-- Struct `notary.Target`: the tag a signed target carries and its recorded hashes
(kept as the trust service delivered them; `DigestFromTarget` decodes them). -/
structure Target where
  Tag : String
  Hashes : String
deriving DecidableEq, Repr

/-- Struct `models.ImgScanOverview`, with the fields this file reads or writes. -/
structure ImgScanOverview where
  Digest : String
  Status : String
  JobID : Int
  Sev : Int
  CompOverview : Option String
  DetailsKey : String
deriving DecidableEq, Repr

/-- Struct `models.ScanJob`, with the field this file reads. -/
structure ScanJob where
  Status : String
deriving DecidableEq, Repr

/-- Struct `tag` (lines 55-63). -/
structure tag where
  Digest : String
  Name : String
  Architecture : String
  OS : String
  DockerVersion : String
  Author : String
  Created : String
deriving DecidableEq, Repr

/-- Struct `tagResp` (lines 65-69): the embedded `tag`, and the two pointers, `none`
for `nil`.  `Signature` holds the target the pointer refers to when the caller reads
the record. -/
structure tagResp where
  tag : tag
  Signature : Option Target
  ScanOverview : Option ImgScanOverview
deriving DecidableEq, Repr

/-- Promoted field `item.Digest` of the embedded `tag`. -/
def tagResp.Digest (r : tagResp) : String := r.tag.Digest

/-- Promoted field `item.Name` of the embedded `tag`. -/
def tagResp.Name (r : tagResp) : String := r.tag.Name

/-- An `io.Reader` as `ioutil.ReadAll` sees it: the bytes it yields, or a read error. -/
abbrev Reader := Except GoError Bytes

/-- The registry client `*registry.Repository`, bound to one repository.
`DeleteTag` and `repositoryExist` answer according to the tags already passed to
`DeleteTag` (the list, oldest first), which is the registry state this file changes. -/
structure Repository where
  ListTag : Except GoError (List String)
  ManifestExist : String → Except GoError (String × Bool)
  PullManifest : String → List String → Except GoError (String × String × Bytes)
  PullBlob : String → Except GoError (Int × Reader)
  DeleteTag : List String → String → Option GoError
  repositoryExist : List String → Except GoError Bool

/-- Everything outside the registry client that the functions consult. -/
structure Env where
  WithNotary : Bool
  WithClair : Bool
  InternalNotaryEndpoint : String
  /-- Call `notary.GetInternalTargets(endpoint, username, repository)`. -/
  GetInternalTargets : String → String → String → Except GoError (List Target)
  /-- Call `notary.DigestFromTarget(t)`. -/
  DigestFromTarget : Target → Except GoError String
  /-- Call `dao.GetImgScanOverview(digest)`: the pointer and the error it returns. -/
  GetImgScanOverview : String → Option ImgScanOverview × Option GoError
  /-- Call `dao.GetScanJob(id)`: the pointer and the error it returns. -/
  GetScanJob : Int → Option ScanJob × Option GoError
  /-- Decoder `manifest.UnmarshalJSON(payload)` followed by
  `manifest.Target().Digest.String()`. -/
  UnmarshalManifest : Bytes → Except GoError String
  /-- Decoder `json.Unmarshal(config, tag)` into a fresh `tag`. -/
  UnmarshalTag : Bytes → Except GoError tag
  /-- Constant `schema2.MediaTypeManifest`. -/
  MediaTypeManifest : String
  /-- Call `utils.ParseRepository(repoName)`: project name and the rest. -/
  ParseRepository : String → String × String
  /-- Call `config.RegistryURL()`. -/
  RegistryURL : Except GoError String
  /-- Call `NewRepositoryClient(endpoint, true, username, repoName, "repository",
  repoName, "pull", "push", "*")`, by endpoint, username and repository name. -/
  NewRepositoryClient : String → String → String → Except GoError Repository
  /-- Call `dao.DeleteRepository(repoName)`. -/
  DeleteRepository : String → Option GoError

/-! ## getSignatures (lines 752-769) -/

/-- The Go value `map[string]*notary.Target` that `getSignatures` builds.  Every value
the loop stores is `&tgt`, the address of the loop's range variable, and the Go this
repository is written for (before 1.22, no go.mod) has one such variable for the whole
loop: all entries hold the same pointer.  The map is therefore its key set together
with the content of that variable, which is the target of the latest iteration. -/
structure SignatureMap where
  keys : List String
  tgt : Option Target
deriving DecidableEq, Repr

/-- Literal `map[string]*notary.Target{}`. -/
def SignatureMap.empty : SignatureMap := { keys := [], tgt := none }

/-- The `ok` of `_, ok := signedTags[digest]`: whether the key is present; a `nil`
map has no key. -/
def hasKey (m : Option SignatureMap) (digest : String) : Bool :=
  match m with
  | none => false
  | some s => decide (digest ∈ s.keys)

/-- Index expression `signatures[digest]` in its two-value form: the target behind
the stored pointer when the key is present. -/
def SignatureMap.get (m : SignatureMap) (digest : String) : Option Target :=
  if digest ∈ m.keys then m.tgt else none

/-- Lookup in a possibly `nil` map: a `nil` map has no key. -/
def lookupSignature (m : Option SignatureMap) (digest : String) : Option Target :=
  match m with
  | none => none
  | some s => s.get digest

/-- The loop of lines 760-766 over the remaining targets. -/
def getSignaturesLoop (env : Env) :
    List Target → SignatureMap → Option SignatureMap × Option GoError
  | [], signatures => (some signatures, none)
  | tgt :: rest, signatures =>
    match env.DigestFromTarget tgt with
    | .error err => (none, some err)
    | .ok digest =>
      getSignaturesLoop env rest
        { keys := if digest ∈ signatures.keys then signatures.keys
                  else signatures.keys ++ [digest],
          tgt := some tgt }

/-- Function `getSignatures(repository, username)`. -/
def getSignatures (env : Env) (repository username : String) :
    Option SignatureMap × Option GoError :=
  match env.GetInternalTargets env.InternalNotaryEndpoint username repository with
  | .error err => (none, some err)
  | .ok targets => getSignaturesLoop env targets SignatureMap.empty

/-! ## getScanOverview (lines 771-796) -/

/-- Function `getScanOverview(digest, tag)`; the log calls are dropped. -/
def getScanOverview (env : Env) (digest : String) (_tag : String) :
    Option ImgScanOverview :=
  match (env.GetImgScanOverview digest).1 with
  | none => none
  | some data =>
    match env.GetScanJob data.JobID with
    | (_, some _) => none
    | (none, none) => none
    | (some job, none) =>
      let data := { data with Status := job.Status }
      if data.Status ≠ JobFinished then
        some { data with Sev := 0, CompOverview := none, DetailsKey := "" }
      else
        some data

/-! ## getV2Manifest, getDetailedTags (lines 449-500) -/

/-- Function `getV2Manifest(client, tag)`: digest and config bytes (the manifest
itself is ignored by the only caller), or the first error met. -/
def getV2Manifest (env : Env) (client : Repository) (t : String) :
    Except GoError (String × Bytes) :=
  match client.PullManifest t [env.MediaTypeManifest] with
  | .error err => .error err
  | .ok (digest, _, payload) =>
    match env.UnmarshalManifest payload with
    | .error err => .error err
    | .ok target =>
      match client.PullBlob target with
      | .error err => .error err
      | .ok (_, reader) =>
        match reader with
        | .error err => .error err
        | .ok config => .ok (digest, config)

/-- The body of the loop of lines 454-470 for one tag `t`: the struct appended to the
list, or the error the loop returns with.  It is used to state properties of the loop;
the loop itself is `getDetailedTagsLoop`. -/
def detailedTag (env : Env) (client : Repository) (t : String) : Except GoError tag :=
  match getV2Manifest env client t with
  | .error err => .error err
  | .ok (digest, config) =>
    match env.UnmarshalTag config with
    | .error err => .error err
    | .ok tg => .ok { tg with Name := t, Digest := digest }

/-- The loop of lines 454-470 over the remaining tags, `list` being what has been
appended so far. -/
def getDetailedTagsLoop (env : Env) (client : Repository) :
    List String → List tag → Option (List tag) × Option GoError
  | [], list => (some list, none)
  | t :: rest, list =>
    match getV2Manifest env client t with
    | .error err => (none, some err)
    | .ok (digest, config) =>
      match env.UnmarshalTag config with
      | .error err => (none, some err)
      | .ok tg =>
        getDetailedTagsLoop env client rest (list ++ [{ tg with Name := t, Digest := digest }])

/-- Function `getDetailedTags(client, tags)`. -/
def getDetailedTags (env : Env) (client : Repository) (tags : List String) :
    Option (List tag) × Option GoError :=
  getDetailedTagsLoop env client tags []

/-! ## assemble (lines 408-447) -/

/-- One iteration of the loop of lines 429-444: the record built for `t`. -/
def assembleItem (env : Env) (signatures : Option SignatureMap) (t : tag) : tagResp :=
  let item : tagResp := { tag := t, Signature := none, ScanOverview := none }
  let item : tagResp :=
    if env.WithClair then
      { item with ScanOverview := getScanOverview env item.Digest item.Name }
    else item
  match lookupSignature signatures item.Digest with
  | some signature =>
    if item.Name = signature.Tag then { item with Signature := some signature } else item
  | none => item

/-- Function `assemble(client, repository, tags, username)`. -/
def assemble (env : Env) (client : Repository) (repository : String)
    (tags : List String) (username : String) : Option (List tagResp) × Option GoError :=
  match getDetailedTags env client tags with
  | (_, some err) => (none, some err)
  | (list, none) =>
    let signatures : Option SignatureMap × Option GoError :=
      if env.WithNotary then getSignatures env repository username
      else (some SignatureMap.empty, none)
    match signatures with
    | (_, some err) => (none, some err)
    | (signatures, none) =>
      (some ((list.getD []).map (assembleItem env signatures)), none)

/-! ## getSimpleTags (lines 502-525) -/

/-- Library function `sort.Strings`: sorts a slice of strings in increasing order.
Go compares strings byte by byte; the order used here is the lexicographic order by
code point, which is the byte-wise order of the UTF-8 encodings.  Which sorting
algorithm runs does not show in the result, equal strings being indistinguishable. -/
def sortStrings (l : List String) : List String :=
  l.insertionSort (· ≤ ·)

/-- Function `getSimpleTags(client)`. -/
def getSimpleTags (client : Repository) : Option (List String) × Option GoError :=
  let tags : List String := []
  match client.ListTag with
  | .error err =>
    match err with
    | .registry StatusCode _ =>
      if StatusCode = StatusNotFound then (some tags, none) else (none, some err)
    | .other _ => (none, some err)
  | .ok ts => (some (sortStrings (tags ++ ts)), none)

/-! ## RepositoryAPI.Delete (lines 163-293) -/

/-- The receiver `ra` of a handler: request parameters, project manager and security
context, as far as `Delete` consults them. -/
structure RepositoryAPI where
  GetString : String → String
  ProjectMgrExist : String → Except GoError Bool
  IsAuthenticated : Bool
  HasAllPerm : String → Bool
  GetUsername : String

/-- How a handler ends: by returning normally, or through the named responder.
`CustomAbort` panics out of the handler with the status and body given. -/
inductive Outcome where
  | returned
  | HandleInternalServerError (text : String)
  | HandleNotFound (text : String)
  | HandleUnauthorized
  | HandleForbidden (username : String)
  | CustomAbort (status : Nat) (body : String)
deriving DecidableEq, Repr

/-- What `Delete` did: how it ended, the arguments of its calls to `rc.DeleteTag` in
order, the tags for which it spawned the replication trigger and the access-log
writer, and whether it called `dao.DeleteRepository`. -/
structure DeleteResult where
  outcome : Outcome
  deleted : List String
  notified : List String
  repositoryDeleted : Bool
deriving DecidableEq, Repr

/-- Method `initRepositoryClient(repoName)` (lines 626-634). -/
def initRepositoryClient (env : Env) (ra : RepositoryAPI) (repoName : String) :
    Except GoError Repository :=
  match env.RegistryURL with
  | .error err => .error err
  | .ok endpoint => env.NewRepositoryClient endpoint ra.GetUsername repoName

/-- Lines 197-218 of `Delete`: the tags to delete, or the abort taken. -/
def deleteTagList (ra : RepositoryAPI) (rc : Repository) : Except Outcome (List String) :=
  let tags : List String := []
  let t := ra.GetString ":tag"
  if t.length = 0 then
    match rc.ListTag with
    | .error err =>
      match err with
      | .registry StatusCode Detail => .error (.CustomAbort StatusCode Detail)
      | .other _ => .error (.CustomAbort StatusInternalServerError "internal error")
    | .ok tagList =>
      if tagList.length = 0 then .error (.CustomAbort StatusNotFound "Not Found")
      else .ok (tags ++ tagList)
  else .ok (tags ++ [t])

/-- The loop of lines 228-239 of `Delete` over the remaining tags: the abort it takes,
if any. -/
def deleteGuardLoop (rc : Repository) (signedTags : Option SignatureMap) :
    List String → Option Outcome
  | [] => none
  | t :: rest =>
    match rc.ManifestExist t with
    | .error err => some (.CustomAbort StatusInternalServerError err.Error)
    | .ok (digest, _) =>
      if hasKey signedTags digest then
        some (.CustomAbort StatusPreconditionFailed ("tag " ++ t ++ " is signed"))
      else deleteGuardLoop rc signedTags rest

/-- Lines 220-240 of `Delete`: the abort taken by the guard, if any. -/
def deleteGuard (env : Env) (ra : RepositoryAPI) (rc : Repository) (repoName : String)
    (tags : List String) : Option Outcome :=
  if env.WithNotary then
    match getSignatures env ra.GetUsername repoName with
    | (_, some err) =>
      some (.HandleInternalServerError
        ("failed to get signatures for repository " ++ repoName ++ ": " ++ err.Error))
    | (signedTags, none) => deleteGuardLoop rc signedTags tags
  else none

/-- The loop of lines 242-280 of `Delete` over the remaining tags, given the tags
already passed to `DeleteTag` and those already notified: the abort it takes, if any,
and both lists at the end. -/
def deleteTagsLoop (rc : Repository) :
    List String → List String → List String → Option Outcome × List String × List String
  | [], deleted, notified => (none, deleted, notified)
  | t :: rest, deleted, notified =>
    match rc.DeleteTag deleted t with
    | some err =>
      match err with
      | .registry StatusCode Detail =>
        if StatusCode = StatusNotFound then
          deleteTagsLoop rc rest (deleted ++ [t]) notified
        else (some (.CustomAbort StatusCode Detail), deleted ++ [t], notified)
      | .other _ =>
        (some (.CustomAbort StatusInternalServerError "internal error"),
          deleted ++ [t], notified)
    | none => deleteTagsLoop rc rest (deleted ++ [t]) (notified ++ [t])

/-- Method `Delete()` of `RepositoryAPI`. -/
def Delete (env : Env) (ra : RepositoryAPI) : DeleteResult :=
  let stop (o : Outcome) : DeleteResult :=
    { outcome := o, deleted := [], notified := [], repositoryDeleted := false }
  let repoName := ra.GetString ":splat"
  let projectName := (env.ParseRepository repoName).1
  match ra.ProjectMgrExist projectName with
  | .error err =>
    stop (.HandleInternalServerError
      ("failed to check the existence of project " ++ projectName ++ ": " ++ err.Error))
  | .ok exist =>
    if !exist then stop (.HandleNotFound ("project " ++ projectName ++ " not found"))
    else if !ra.IsAuthenticated then stop .HandleUnauthorized
    else if !ra.HasAllPerm projectName then stop (.HandleForbidden ra.GetUsername)
    else
      match initRepositoryClient env ra repoName with
      | .error _ => stop (.CustomAbort StatusInternalServerError "internal error")
      | .ok rc =>
        match deleteTagList ra rc with
        | .error o => stop o
        | .ok tags =>
          match deleteGuard env ra rc repoName tags with
          | some o => stop o
          | none =>
            match deleteTagsLoop rc tags [] [] with
            | (some o, deleted, notified) =>
              { outcome := o, deleted := deleted, notified := notified,
                repositoryDeleted := false }
            | (none, deleted, notified) =>
              match rc.repositoryExist deleted with
              | .error _ =>
                { outcome := .CustomAbort StatusInternalServerError "", deleted := deleted,
                  notified := notified, repositoryDeleted := false }
              | .ok exist =>
                if !exist then
                  match env.DeleteRepository repoName with
                  | some _ =>
                    { outcome := .CustomAbort StatusInternalServerError "",
                      deleted := deleted, notified := notified, repositoryDeleted := true }
                  | none =>
                    { outcome := .returned, deleted := deleted, notified := notified,
                      repositoryDeleted := true }
                else
                  { outcome := .returned, deleted := deleted, notified := notified,
                    repositoryDeleted := false }

/-- The index `assemble` works with: the result of `getSignatures` when the trust
service is configured, the empty map literal otherwise. -/
def assembleSignatures (env : Env) (repository username : String) :
    Option SignatureMap × Option GoError :=
  if env.WithNotary then getSignatures env repository username
  else (some SignatureMap.empty, none)

/-! ## Fixtures: a registry and a trust service given by tables -/

/-- A registry client that serves the given table from tag to manifest digest; every
config blob is empty and every deletion succeeds. -/
def tableClient (manifests : List (String × String)) : Repository :=
  { ListTag := .ok (manifests.map Prod.fst),
    ManifestExist := fun t =>
      match manifests.lookup t with
      | some d => .ok (d, true)
      | none => .ok ("", false),
    PullManifest := fun t _ =>
      match manifests.lookup t with
      | some d => .ok (d, "application/vnd.docker.distribution.manifest.v2+json", [])
      | none => .error (.registry 404 "manifest unknown"),
    PullBlob := fun _ => .ok (0, .ok []),
    DeleteTag := fun _ _ => none,
    repositoryExist := fun deleted =>
      .ok (manifests.any (fun p => !(deleted.contains p.1))) }

/-- An environment whose trust service returns `targets` for every repository and
whose scan store holds `scans` (by digest) and `jobs` (by id).  A target with empty
hashes has no digest; any other has the digest `sha256:` followed by its hashes. -/
def tableEnv (withNotary withClair : Bool) (targets : List Target)
    (scans : List (String × ImgScanOverview)) (jobs : List (Int × ScanJob)) : Env :=
  { WithNotary := withNotary,
    WithClair := withClair,
    InternalNotaryEndpoint := "http://notary-server:4443",
    GetInternalTargets := fun _ _ _ => .ok targets,
    DigestFromTarget := fun t =>
      if t.Hashes = "" then .error (.other "no valid hash, expecting sha256")
      else .ok ("sha256:" ++ t.Hashes),
    GetImgScanOverview := fun d => (scans.lookup d, none),
    GetScanJob := fun i => (jobs.lookup i, none),
    UnmarshalManifest := fun _ => .ok "sha256:config",
    UnmarshalTag := fun _ =>
      .ok { Digest := "", Name := "", Architecture := "amd64", OS := "linux",
            DockerVersion := "17.03", Author := "", Created := "" },
    MediaTypeManifest := "application/vnd.docker.distribution.manifest.v2+json",
    ParseRepository := fun r => ((r.splitOn "/").headD "", r),
    RegistryURL := .ok "http://registry:5000",
    NewRepositoryClient := fun _ _ _ => .ok (tableClient []),
    DeleteRepository := fun _ => none }

/-- The struct `getDetailedTags` produces under `tableEnv` for a tag and its digest. -/
def tableTag (name digest : String) : tag :=
  { Digest := digest, Name := name, Architecture := "amd64", OS := "linux",
    DockerVersion := "17.03", Author := "", Created := "" }

/-- A trust service holding one target per tag, with different digests. -/
def twoTargets : List Target := [⟨"v1", "aaa"⟩, ⟨"v2", "bbb"⟩]

/-- A registry in which tag `v2` has been pushed again and now resolves to the
manifest of `v1`. -/
def repushedRegistry : Repository := tableClient [("v1", "sha256:aaa"), ("v2", "sha256:aaa")]

/-- A trust service holding two targets with different tags and one digest. -/
def sharedDigestTargets : List Target := [⟨"v1", "aaa"⟩, ⟨"v2", "aaa"⟩]

/-- A stored overview of a finished scan, and the later job 8 which is still running. -/
def staleOverview : ImgScanOverview :=
  { Digest := "sha256:aaa", Status := "finished", JobID := 8, Sev := 5,
    CompOverview := some "total 12, high 3", DetailsKey := "clair-layer-1" }

/-- A request of an authenticated project administrator `user` on repository `repo`
with the route parameter `:tag` set to `t` (empty when the route has none). -/
def deleteRequest (repo t user : String) : RepositoryAPI :=
  { GetString := fun k => if k = ":splat" then repo else if k = ":tag" then t else "",
    ProjectMgrExist := fun _ => .ok true,
    IsAuthenticated := true,
    HasAllPerm := fun _ => true,
    GetUsername := user }

/-- The environment `tableEnv` with the trust service configured, holding `targets`,
and with `rc` as the registry client of every repository. -/
def trustEnv (targets : List Target) (rc : Repository) : Env :=
  { tableEnv true false targets [] [] with NewRepositoryClient := fun _ _ _ => .ok rc }

/-- Reading the manifest and config of tag `t` fails with `err`: the manifest pull,
the manifest decoding, the blob pull, the read of the blob or the config decoding
returns `err`, the steps before it having succeeded. -/
def tagFails (env : Env) (client : Repository) (t : String) (err : GoError) : Prop :=
  client.PullManifest t [env.MediaTypeManifest] = .error err ∨
  ∃ digest mediaType payload,
    client.PullManifest t [env.MediaTypeManifest] = .ok (digest, mediaType, payload) ∧
    (env.UnmarshalManifest payload = .error err ∨
     ∃ target, env.UnmarshalManifest payload = .ok target ∧
      (client.PullBlob target = .error err ∨
       ∃ size, client.PullBlob target = .ok (size, .error err) ∨
        ∃ config, client.PullBlob target = .ok (size, .ok config) ∧
          env.UnmarshalTag config = .error err))

/-- A scan store whose overview lookup returns a record together with an error. -/
def overviewWithError : Env :=
  { tableEnv true true [] [] [(8, ⟨"finished"⟩)] with
    GetImgScanOverview := fun _ => (some staleOverview, some (.other "database is locked")) }

/-- A trust service that keeps the roles of its query apart: it holds the target of
`v1` for the repository `library/app` when asked on behalf of user `admin`, and
nothing under any other pair.  The registry client of every repository is `rc`. -/
def roleEnv (rc : Repository) : Env :=
  { tableEnv true false [] [] [] with
    GetInternalTargets := fun _ username repository =>
      if username = "admin" ∧ repository = "library/app" then .ok [⟨"v1", "aaa"⟩]
      else .ok [],
    NewRepositoryClient := fun _ _ _ => .ok rc }

/-! ## JSON encoding of `tagResp` (struct tags of lines 55-69) -/

/-- A value `json.Marshal` writes for a field of `tagResp`: `null` for a nil pointer,
a string, or the encoding of the struct behind a pointer that is not nil. -/
inductive JSONValue where
  | null
  | string (s : String)
  | object (encoded : String)
deriving DecidableEq, Repr

/-- The members `json.Marshal` writes for the struct `tag`, by the struct tags of
lines 56-62; none of them has `omitempty`. -/
def tag.jsonFields (t : tag) : List (String × JSONValue) :=
  [("digest", .string t.Digest), ("name", .string t.Name),
   ("architecture", .string t.Architecture), ("os", .string t.OS),
   ("docker_version", .string t.DockerVersion), ("author", .string t.Author),
   ("created", .string t.Created)]

/-- The members of the JSON object `json.Marshal` writes for a `tagResp`: those of the
embedded `tag`, then `signature` (tag `json:"signature"`, written also for a nil
pointer, as `null`), then `scan_overview` (tag `json:"scan_overview,omitempty"`, left
out for a nil pointer).  The encoders of the two pointed-to structs are parameters. -/
def tagResp.jsonFields (marshalTarget : Target → String)
    (marshalOverview : ImgScanOverview → String) (r : tagResp) :
    List (String × JSONValue) :=
  r.tag.jsonFields ++
  [("signature",
      match r.Signature with
      | none => JSONValue.null
      | some s => JSONValue.object (marshalTarget s))] ++
  (match r.ScanOverview with
   | none => []
   | some o => [("scan_overview", JSONValue.object (marshalOverview o))])

/-- The keys of a list of members. -/
def jsonKeys (fields : List (String × JSONValue)) : List String :=
  fields.map Prod.fst

/-! ## The pull-manifest matcher of the proxy (spec 4.1; only its test is in the sources) -/

/-- The parts of a request URL (`*url.URL`) held apart: `Host` carries the port. -/
structure URL where
  Scheme : String
  Host : String
  Path : String
deriving DecidableEq, Repr

/-- The parts of `*http.Request` that identify a call on the wire. -/
structure Request where
  Method : String
  URL : URL
deriving DecidableEq, Repr

/-- The segments of a path: the pieces between its `/` characters, empty pieces
included. -/
def splitSlash : List Char → List (List Char)
  | [] => [[]]
  | c :: cs =>
    if c = '/' then [] :: splitSlash cs
    else
      match splitSlash cs with
      | [] => [[c]]
      | s :: ss => (c :: s) :: ss

/-- Segments put together again with `/` between them. -/
def joinSlash : List (List Char) → List Char
  | [] => []
  | [s] => s
  | s :: t :: ss => s ++ '/' :: joinSlash (t :: ss)

/-- A multi-segment repository path as one string, `a/b/c` for the segments `a`, `b`
and `c`. -/
def joinPath (segs : List String) : String :=
  String.mk (joinSlash (segs.map String.data))

/-- Modelled from the spec: the function `MatchPullManifest` of `src/ui/proxy`, of
which the sources hold only the test `TestMatchPullManifest`.  By section 4.1 a request
matches when its method is GET and its URL path is `/v2/{repository-path}/manifests/
{reference}`, the repository path being one or more `/`-separated segments and the
reference one token, a tag or a `sha256:` digest; the repository is everything before
the last `/manifests/`, kept whole.  Any other method or path is no match.  Scheme,
host and port are not read.  Returns `(isMatch, repository, reference)`. -/
def MatchPullManifest (req : Request) : Bool × String × String :=
  if req.Method ≠ "GET" then (false, "", "")
  else
    match splitSlash req.URL.Path.data with
    | [] :: version :: rest =>
      if version = ['v', '2'] then
        match rest.reverse with
        | reference :: word :: repository =>
          if word = "manifests".data ∧ repository ≠ [] ∧ (∀ s ∈ repository, s ≠ []) ∧
              reference ≠ [] then
            (true, String.mk (joinSlash repository.reverse), String.mk reference)
          else (false, "", "")
        | _ => (false, "", "")
      else (false, "", "")
    | _ => (false, "", "")

/-- The request `http.NewRequest(method, url, nil)` of the test, its URL given by
scheme, host and path. -/
def newRequest (method scheme host path : String) : Request :=
  { Method := method, URL := { Scheme := scheme, Host := host, Path := path } }

/-! ## The digest/signature matcher of the proxy (spec 4.3; only its test is in the sources) -/

/-- Modelled from the spec: the struct `imageInfo` of `src/ui/proxy`, which the test
`TestMatchNotaryDigest` builds from a repository, a reference (the tag) and a project
name; section 3 of the spec calls it ImageInfo. -/
structure imageInfo where
  repository : String
  reference : String
  projectName : String
deriving DecidableEq, Repr

/-- Modelled from the spec: the predicate of section 4.3 on one signed target.  It is
true when the digest recorded in the target equals `digest` and the tag name of the
target equals the reference under evaluation; a target whose digest cannot be decoded
is a hard error, not a false result. -/
def targetMatches (env : Env) (target : Target) (reference digest : String) :
    Except GoError Bool :=
  match env.DigestFromTarget target with
  | .error err => .error err
  | .ok d => .ok (decide (d = digest ∧ target.Tag = reference))

/-- Modelled from the spec: whether a reference is a digest token rather than a tag;
by section 4.1 a digest token is `sha256:`-prefixed. -/
def isDigestReference (reference : String) : Bool :=
  "sha256:".data.isPrefixOf reference.data

/-- Modelled from the spec: the signed targets "keyed by digest" (section 4.4), each
target of the list paired with its decoded digest.  A target whose digest cannot be
decoded is a hard error (section 4.3), wherever it stands in the list. -/
def keyByDigest (env : Env) : List Target → Except GoError (List (String × Target))
  | [] => .ok []
  | t :: rest =>
    match env.DigestFromTarget t with
    | .error err => .error err
    | .ok d =>
      match keyByDigest env rest with
      | .error err => .error err
      | .ok keyed => .ok ((d, t) :: keyed)

/-- Modelled from the spec: the function `matchNotaryDigest(img, digest)` of
`src/ui/proxy`, of which the sources hold only the test `TestMatchNotaryDigest`.  By
section 4.4 it fetches all signed targets of the image's repository from the trust
service (on behalf of `actor`), keyed by digest; when the reference is a tag it looks
for a target whose tag equals the reference and whose digest equals `digest`, the
resolved manifest digest (the rule of section 4.3); when the reference is itself a
digest it looks for a target of that digest, whatever its tag.  An error of the trust
service or an undecodable target is returned as an error, not as `false`. -/
def matchNotaryDigest (env : Env) (actor : String) (img : imageInfo) (digest : String) :
    Bool × Option GoError :=
  match env.GetInternalTargets env.InternalNotaryEndpoint actor img.repository with
  | .error err => (false, some err)
  | .ok targets =>
    match keyByDigest env targets with
    | .error err => (false, some err)
    | .ok keyed =>
      if isDigestReference img.reference then
        (keyed.any (fun p => decide (p.1 = digest)), none)
      else
        (keyed.any (fun p => decide (p.1 = digest ∧ p.2.Tag = img.reference)), none)

/-- The signed targets of `notary-demo/busybox` in the test `TestMatchNotaryDigest`:
tag `1.0` with the digest the test expects, and tag `2.0` with another digest. -/
def busyboxTargets : List Target :=
  [⟨"1.0", "1359608115b94599e5641638bac5aef1ddfaa79bb96057ebf41ebc8d33acf8a7"⟩,
   ⟨"2.0", "41ff3d6c8e2a1f4d5b6a7c8e9f0a1b2c3d4e5f60718293a4b5c6d7e8f9a0b1c2"⟩]

/-! ## Lemmas on the loops -/

theorem getDetailedTagsLoop_cons (env : Env) (client : Repository) (t : String)
    (rest : List String) (list : List tag) :
    getDetailedTagsLoop env client (t :: rest) list =
      match detailedTag env client t with
      | .error err => (none, some err)
      | .ok tg => getDetailedTagsLoop env client rest (list ++ [tg]) := by
  simp only [getDetailedTagsLoop, detailedTag]
  cases h : getV2Manifest env client t with
  | error e => rfl
  | ok v =>
    obtain ⟨digest, config⟩ := v
    simp only
    cases h2 : env.UnmarshalTag config with
    | error e => rfl
    | ok tg => rfl

theorem detailedTag_ok {env : Env} {client : Repository} {t : String} {tg : tag}
    (h : detailedTag env client t = .ok tg) :
    tg.Name = t ∧ ∃ mediaType payload,
      client.PullManifest t [env.MediaTypeManifest] = .ok (tg.Digest, mediaType, payload) := by
  unfold detailedTag at h
  cases h1 : getV2Manifest env client t with
  | error e => simp [h1] at h
  | ok v =>
    obtain ⟨digest, config⟩ := v
    simp only [h1] at h
    cases h2 : env.UnmarshalTag config with
    | error e => simp [h2] at h
    | ok tg0 =>
      simp only [h2, Except.ok.injEq] at h
      subst h
      refine ⟨rfl, ?_⟩
      unfold getV2Manifest at h1
      cases h3 : client.PullManifest t [env.MediaTypeManifest] with
      | error e => simp [h3] at h1
      | ok w =>
        obtain ⟨d, mt, payload⟩ := w
        simp only [h3] at h1
        refine ⟨mt, payload, ?_⟩
        cases h4 : env.UnmarshalManifest payload with
        | error e => simp [h4] at h1
        | ok target =>
          simp only [h4] at h1
          cases h5 : client.PullBlob target with
          | error e => simp [h5] at h1
          | ok b =>
            obtain ⟨sz, reader⟩ := b
            simp only [h5] at h1
            cases reader with
            | error e => simp at h1
            | ok cfg =>
              simp only [Except.ok.injEq, Prod.mk.injEq] at h1
              simp [h1.1]

theorem getDetailedTagsLoop_ok {env : Env} {client : Repository} :
    ∀ (ts : List String) (acc list : List tag),
      getDetailedTagsLoop env client ts acc = (some list, none) →
      ∃ news, list = acc ++ news ∧
        List.Forall₂ (fun u tg => detailedTag env client u = .ok tg) ts news
  | [], acc, list, h => by
    simp only [getDetailedTagsLoop, Prod.mk.injEq, Option.some.injEq, and_true] at h
    exact ⟨[], by simp [h], List.Forall₂.nil⟩
  | t :: rest, acc, list, h => by
    rw [getDetailedTagsLoop_cons] at h
    cases h1 : detailedTag env client t with
    | error e => simp [h1] at h
    | ok tg =>
      simp only [h1] at h
      obtain ⟨news, hl, hf⟩ := getDetailedTagsLoop_ok rest (acc ++ [tg]) list h
      exact ⟨tg :: news, by simp [hl], List.Forall₂.cons h1 hf⟩

theorem getDetailedTagsLoop_total {env : Env} {client : Repository} :
    ∀ (ts : List String) (acc : List tag),
      (∃ list, getDetailedTagsLoop env client ts acc = (some list, none)) ∨
      (∃ err, getDetailedTagsLoop env client ts acc = (none, some err))
  | [], acc => Or.inl ⟨acc, rfl⟩
  | t :: rest, acc => by
    rw [getDetailedTagsLoop_cons]
    cases h1 : detailedTag env client t with
    | error e => exact Or.inr ⟨e, rfl⟩
    | ok tg => exact getDetailedTagsLoop_total rest (acc ++ [tg])

theorem getDetailedTagsLoop_first_error {env : Env} {client : Repository} :
    ∀ (pre : List String) (t : String) (post : List String) (err : GoError)
      (acc : List tag),
      (∀ u ∈ pre, ∃ tg, detailedTag env client u = .ok tg) →
      detailedTag env client t = .error err →
      getDetailedTagsLoop env client (pre ++ t :: post) acc = (none, some err)
  | [], t, post, err, acc, _, ht => by
    rw [List.nil_append, getDetailedTagsLoop_cons, ht]
  | u :: pre, t, post, err, acc, hpre, ht => by
    obtain ⟨tg, hu⟩ := hpre u (List.mem_cons_self u pre)
    rw [List.cons_append, getDetailedTagsLoop_cons, hu]
    exact getDetailedTagsLoop_first_error pre t post err (acc ++ [tg])
      (fun v hv => hpre v (List.mem_cons_of_mem u hv)) ht

theorem getDetailedTagsLoop_all_ok {env : Env} {client : Repository} :
    ∀ (ts : List String) (acc : List tag),
      (∀ u ∈ ts, ∃ tg, detailedTag env client u = .ok tg) →
      ∃ list, getDetailedTagsLoop env client ts acc = (some list, none)
  | [], acc, _ => ⟨acc, rfl⟩
  | u :: rest, acc, h => by
    obtain ⟨tg, hu⟩ := h u (List.mem_cons_self u rest)
    rw [getDetailedTagsLoop_cons, hu]
    exact getDetailedTagsLoop_all_ok rest (acc ++ [tg])
      (fun v hv => h v (List.mem_cons_of_mem u hv))

theorem getSignaturesLoop_total {env : Env} :
    ∀ (targets : List Target) (m : SignatureMap),
      (∃ r, getSignaturesLoop env targets m = (some r, none)) ∨
      (∃ err, getSignaturesLoop env targets m = (none, some err))
  | [], m => Or.inl ⟨m, rfl⟩
  | s :: rest, m => by
    unfold getSignaturesLoop
    cases h : env.DigestFromTarget s with
    | error e => exact Or.inr ⟨e, rfl⟩
    | ok d => exact getSignaturesLoop_total rest _

theorem getSignaturesLoop_ok {env : Env} :
    ∀ (targets : List Target) (m r : SignatureMap),
      getSignaturesLoop env targets m = (some r, none) →
      (∀ d, d ∈ r.keys ↔ d ∈ m.keys ∨ ∃ s ∈ targets, env.DigestFromTarget s = .ok d) ∧
      r.tgt = (targets.getLast?).or m.tgt ∧
      ∀ s ∈ targets, ∃ d, env.DigestFromTarget s = .ok d
  | [], m, r, h => by
    simp only [getSignaturesLoop, Prod.mk.injEq, Option.some.injEq, and_true] at h
    subst h
    simp
  | s :: rest, m, r, h => by
    unfold getSignaturesLoop at h
    cases hd : env.DigestFromTarget s with
    | error e => simp [hd] at h
    | ok d =>
      simp only [hd] at h
      obtain ⟨hk, ht, hall⟩ := getSignaturesLoop_ok rest _ r h
      refine ⟨?_, ?_, ?_⟩
      · intro x
        rw [hk x]
        constructor
        · rintro (hx | ⟨u, hu, hux⟩)
          · by_cases hin : d ∈ m.keys
            · simp only [hin, if_true] at hx
              exact Or.inl hx
            · simp only [hin, if_false, List.mem_append, List.mem_singleton] at hx
              rcases hx with hx | hx
              · exact Or.inl hx
              · exact Or.inr ⟨s, List.mem_cons_self s rest, by rw [hx]; exact hd⟩
          · exact Or.inr ⟨u, List.mem_cons_of_mem s hu, hux⟩
        · rintro (hx | ⟨u, hu, hux⟩)
          · left
            by_cases hin : d ∈ m.keys
            · simpa [hin] using hx
            · simp [hin, hx]
          · rcases List.mem_cons.mp hu with rfl | hu
            · left
              have hxd : d = x := by
                rw [hd] at hux
                exact Except.ok.inj hux
              subst hxd
              by_cases hin : d ∈ m.keys
              · simp [hin]
              · simp [hin]
            · exact Or.inr ⟨u, hu, hux⟩
      · rw [ht]
        cases rest with
        | nil => simp
        | cons a l =>
          obtain ⟨x, hx⟩ : ∃ x, (a :: l).getLast? = some x :=
            ⟨_, List.getLast?_eq_getLast _ (List.cons_ne_nil a l)⟩
          simp [List.getLast?_cons_cons, hx]
      · intro u hu
        rcases List.mem_cons.mp hu with rfl | hu
        · exact ⟨d, hd⟩
        · exact hall u hu

theorem getSignaturesLoop_all_ok {env : Env} :
    ∀ (targets : List Target) (m : SignatureMap),
      (∀ s ∈ targets, ∃ d, env.DigestFromTarget s = .ok d) →
      ∃ r, getSignaturesLoop env targets m = (some r, none)
  | [], m, _ => ⟨m, rfl⟩
  | s :: rest, m, h => by
    obtain ⟨d, hd⟩ := h s (List.mem_cons_self s rest)
    unfold getSignaturesLoop
    simp only [hd]
    exact getSignaturesLoop_all_ok rest _ (fun v hv => h v (List.mem_cons_of_mem s hv))

theorem getSignaturesLoop_first_error {env : Env} :
    ∀ (pre : List Target) (s : Target) (post : List Target) (err : GoError)
      (m : SignatureMap),
      (∀ u ∈ pre, ∃ d, env.DigestFromTarget u = .ok d) →
      env.DigestFromTarget s = .error err →
      getSignaturesLoop env (pre ++ s :: post) m = (none, some err)
  | [], s, post, err, m, _, hs => by
    rw [List.nil_append]
    unfold getSignaturesLoop
    simp only [hs]
  | u :: pre, s, post, err, m, hpre, hs => by
    obtain ⟨d, hu⟩ := hpre u (List.mem_cons_self u pre)
    rw [List.cons_append]
    unfold getSignaturesLoop
    simp only [hu]
    exact getSignaturesLoop_first_error pre s post err _
      (fun v hv => hpre v (List.mem_cons_of_mem u hv)) hs

theorem getSignatures_total (env : Env) (repository username : String) :
    (∃ r, getSignatures env repository username = (some r, none)) ∨
    (∃ err, getSignatures env repository username = (none, some err)) := by
  unfold getSignatures
  cases h : env.GetInternalTargets env.InternalNotaryEndpoint username repository with
  | error e => exact Or.inr ⟨e, rfl⟩
  | ok targets => exact getSignaturesLoop_total targets _

theorem assembleItem_tag (env : Env) (signatures : Option SignatureMap) (t : tag) :
    (assembleItem env signatures t).tag = t := by
  unfold assembleItem
  simp only
  split
  · split <;> split <;> rfl
  · split <;> rfl

theorem assembleItem_ScanOverview (env : Env) (signatures : Option SignatureMap) (t : tag) :
    (assembleItem env signatures t).ScanOverview =
      if env.WithClair then getScanOverview env t.Digest t.Name else none := by
  unfold assembleItem
  simp only
  split
  · split <;> split <;> rfl
  · split <;> rfl

theorem assembleItem_Signature (env : Env) (signatures : Option SignatureMap) (t : tag) :
    (assembleItem env signatures t).Signature =
      match lookupSignature signatures t.Digest with
      | some signature => if t.Name = signature.Tag then some signature else none
      | none => none := by
  unfold assembleItem
  simp only
  cases hc : env.WithClair <;>
    simp only [tagResp.Digest, tagResp.Name, if_true, if_false, Bool.false_eq_true] <;>
    cases lookupSignature signatures t.Digest with
    | none => rfl
    | some sg => simp only; split <;> rfl

theorem assemble_eq (env : Env) (client : Repository) (repository : String)
    (tags : List String) (username : String) :
    assemble env client repository tags username =
      match getDetailedTags env client tags with
      | (_, some err) => (none, some err)
      | (list, none) =>
        match assembleSignatures env repository username with
        | (_, some err) => (none, some err)
        | (signatures, none) =>
          (some ((list.getD []).map (assembleItem env signatures)), none) := by
  rfl

theorem assemble_ok {env : Env} {client : Repository} {repository : String}
    {tags : List String} {username : String} {rs : List tagResp}
    (h : assemble env client repository tags username = (some rs, none)) :
    ∃ list signatures,
      getDetailedTags env client tags = (some list, none) ∧
      assembleSignatures env repository username = (signatures, none) ∧
      rs = list.map (assembleItem env signatures) := by
  rw [assemble_eq] at h
  rcases @getDetailedTagsLoop_total env client tags [] with
    ⟨list, hl⟩ | ⟨err, hl⟩
  · have hl2 : getDetailedTags env client tags = (some list, none) := hl
    rw [hl2] at h
    simp only at h
    cases hs : assembleSignatures env repository username with
    | mk sg e =>
      cases e with
      | some err => simp [hs] at h
      | none =>
        simp only [hs, Option.getD_some, Prod.mk.injEq, Option.some.injEq, and_true] at h
        exact ⟨list, sg, hl2, rfl, h.symm⟩
  · have hl2 : getDetailedTags env client tags = (none, some err) := hl
    rw [hl2] at h
    simp at h

theorem forall₂_getElem? {α β : Type} {R : α → β → Prop} :
    ∀ {l₁ : List α} {l₂ : List β}, List.Forall₂ R l₁ l₂ →
      ∀ (i : Nat) (a : α), l₁[i]? = some a → ∃ b, l₂[i]? = some b ∧ R a b
  | _, _, List.Forall₂.nil, i, a, h => by simp at h
  | _, _, List.Forall₂.cons (a := x) (b := y) hxy hrest, i, a, h => by
    cases i with
    | zero =>
      simp only [List.getElem?_cons_zero, Option.some.injEq] at h
      subst h
      exact ⟨y, by simp, hxy⟩
    | succ n =>
      simp only [List.getElem?_cons_succ] at h
      obtain ⟨b, hb, hab⟩ := forall₂_getElem? hrest n a h
      exact ⟨b, by simpa using hb, hab⟩

theorem assemble_success {env : Env} {client : Repository} {repository : String}
    {tags : List String} {username : String} {signatures : Option SignatureMap}
    (htags : ∀ u ∈ tags, ∃ tg, detailedTag env client u = .ok tg)
    (hsig : assembleSignatures env repository username = (signatures, none)) :
    ∃ list, List.Forall₂ (fun u tg => detailedTag env client u = .ok tg) tags list ∧
      assemble env client repository tags username =
        (some (list.map (assembleItem env signatures)), none) := by
  obtain ⟨list, hl⟩ := @getDetailedTagsLoop_all_ok env client tags [] htags
  obtain ⟨news, hn, hf⟩ := getDetailedTagsLoop_ok tags [] list hl
  have hl2 : getDetailedTags env client tags = (some list, none) := hl
  rw [List.nil_append] at hn
  subst hn
  refine ⟨list, hf, ?_⟩
  rw [assemble_eq, hl2]
  simp only [hsig, Option.getD_some]

theorem assemble_signature_lookup {env : Env} {client : Repository} {repository : String}
    {tags : List String} {username : String} {rs : List tagResp} {r : tagResp} {s : Target}
    (h : assemble env client repository tags username = (some rs, none))
    (hr : r ∈ rs) (hs : r.Signature = some s) :
    ∃ signatures, assembleSignatures env repository username = (signatures, none) ∧
      lookupSignature signatures r.Digest = some s ∧ r.Name = s.Tag := by
  obtain ⟨list, signatures, _, hsig, hrs⟩ := assemble_ok h
  subst hrs
  obtain ⟨t, _, rfl⟩ := List.mem_map.mp hr
  refine ⟨signatures, hsig, ?_⟩
  rw [assembleItem_Signature] at hs
  simp only [tagResp.Digest, tagResp.Name, assembleItem_tag]
  cases hl : lookupSignature signatures t.Digest with
  | none => simp [hl] at hs
  | some sg =>
    simp only [hl] at hs
    by_cases hn : t.Name = sg.Tag
    · simp only [hn, if_true, Option.some.injEq] at hs
      subst hs
      exact ⟨rfl, hn⟩
    · simp [hn] at hs

/-- Every signature that `assemble` attaches carries the record's tag name, and it is
the last target of the list the trust service returned, whatever the record's digest. -/
theorem assemble_signature_is_last_target {env : Env} {client : Repository}
    {repository : String} {tags : List String} {username : String} {rs : List tagResp}
    {r : tagResp} {s : Target}
    (h : assemble env client repository tags username = (some rs, none))
    (hr : r ∈ rs) (hs : r.Signature = some s) :
    s.Tag = r.Name ∧ env.WithNotary = true ∧
      ∃ targets, env.GetInternalTargets env.InternalNotaryEndpoint username repository =
          .ok targets ∧ targets.getLast? = some s := by
  obtain ⟨signatures, hsig, hl, hn⟩ := assemble_signature_lookup h hr hs
  refine ⟨hn.symm, ?_⟩
  unfold assembleSignatures at hsig
  cases hw : env.WithNotary with
  | false =>
    simp only [hw, Bool.false_eq_true, if_false, Prod.mk.injEq, and_true] at hsig
    subst hsig
    simp [lookupSignature, SignatureMap.get, SignatureMap.empty] at hl
  | true =>
    refine ⟨rfl, ?_⟩
    simp only [hw, if_true] at hsig
    unfold getSignatures at hsig
    cases ht : env.GetInternalTargets env.InternalNotaryEndpoint username repository with
    | error e => simp [ht] at hsig
    | ok targets =>
      simp only [ht] at hsig
      refine ⟨targets, rfl, ?_⟩
      cases signatures with
      | none => simp [lookupSignature] at hl
      | some m =>
        obtain ⟨_, htgt, _⟩ := getSignaturesLoop_ok targets _ m hsig
        simp only [lookupSignature, SignatureMap.get] at hl
        by_cases hin : r.Digest ∈ m.keys
        · simp only [hin, if_true] at hl
          rw [hl] at htgt
          simpa [SignatureMap.empty] using htgt.symm
        · simp [hin] at hl

theorem deleteGuardLoop_first_signed {rc : Repository} {signedTags : Option SignatureMap} :
    ∀ (front : List String) (t : String) (back : List String) (digest : String)
      (exist : Bool),
      (∀ u ∈ front, ∃ d e, rc.ManifestExist u = .ok (d, e) ∧ hasKey signedTags d = false) →
      rc.ManifestExist t = .ok (digest, exist) → hasKey signedTags digest = true →
      deleteGuardLoop rc signedTags (front ++ t :: back) =
        some (.CustomAbort StatusPreconditionFailed ("tag " ++ t ++ " is signed"))
  | [], t, back, digest, exist, _, ht, hk => by
    rw [List.nil_append]
    unfold deleteGuardLoop
    simp only [ht, hk, if_true]
  | u :: front, t, back, digest, exist, hfront, ht, hk => by
    obtain ⟨d, e, hu, hud⟩ := hfront u (List.mem_cons_self u front)
    rw [List.cons_append]
    unfold deleteGuardLoop
    simp only [hu, hud, Bool.false_eq_true, if_false]
    exact deleteGuardLoop_first_signed front t back digest exist
      (fun v hv => hfront v (List.mem_cons_of_mem u hv)) ht hk

theorem deleteGuardLoop_signed_isSome {rc : Repository} {signedTags : Option SignatureMap} :
    ∀ (tags : List String) (t digest : String) (exist : Bool), t ∈ tags →
      rc.ManifestExist t = .ok (digest, exist) → hasKey signedTags digest = true →
      ∃ o, deleteGuardLoop rc signedTags tags = some o
  | [], t, _, _, hin, _, _ => by simp at hin
  | u :: rest, t, digest, exist, hin, ht, hk => by
    unfold deleteGuardLoop
    cases hu : rc.ManifestExist u with
    | error e => exact ⟨_, rfl⟩
    | ok v =>
      obtain ⟨d, e⟩ := v
      simp only
      by_cases hd : hasKey signedTags d = true
      · simp only [hd, if_true]
        exact ⟨_, rfl⟩
      · simp only [hd, if_false]
        rcases List.mem_cons.mp hin with rfl | hin
        · rw [ht] at hu
          simp only [Except.ok.injEq, Prod.mk.injEq] at hu
          rw [hu.1] at hk
          exact absurd hk hd
        · exact deleteGuardLoop_signed_isSome rest t digest exist hin ht hk

theorem deleteTagsLoop_deleted {rc : Repository} :
    ∀ (tags deleted notified : List String),
      ∃ more, (deleteTagsLoop rc tags deleted notified).2.1 = deleted ++ more ∧
        (tags ≠ [] → more ≠ [])
  | [], deleted, notified => ⟨[], by simp [deleteTagsLoop], by simp⟩
  | t :: rest, deleted, notified => by
    unfold deleteTagsLoop
    cases hd : rc.DeleteTag deleted t with
    | none =>
      obtain ⟨more, hm, _⟩ := @deleteTagsLoop_deleted rc rest (deleted ++ [t])
        (notified ++ [t])
      exact ⟨t :: more, by simp [hm], by simp⟩
    | some err =>
      cases err with
      | other s => exact ⟨[t], rfl, by simp⟩
      | registry c d =>
        simp only
        by_cases hc : c = StatusNotFound
        · simp only [hc, if_true]
          obtain ⟨more, hm, _⟩ := @deleteTagsLoop_deleted rc rest (deleted ++ [t])
            notified
          exact ⟨t :: more, by simp [hm], by simp⟩
        · simp only [hc, if_false]
          exact ⟨[t], rfl, by simp⟩

/-- The state of `Delete` once the checks of lines 166-218 have passed. -/
theorem Delete_guard_abort {env : Env} {ra : RepositoryAPI} {rc : Repository}
    {tags : List String} {o : Outcome}
    (hP : ra.ProjectMgrExist (env.ParseRepository (ra.GetString ":splat")).1 = .ok true)
    (hA : ra.IsAuthenticated = true)
    (hPerm : ra.HasAllPerm (env.ParseRepository (ra.GetString ":splat")).1 = true)
    (hrc : initRepositoryClient env ra (ra.GetString ":splat") = .ok rc)
    (htags : deleteTagList ra rc = .ok tags)
    (hg : deleteGuard env ra rc (ra.GetString ":splat") tags = some o) :
    Delete env ra =
      { outcome := o, deleted := [], notified := [], repositoryDeleted := false } := by
  unfold Delete
  simp only [hP, hA, hPerm, hrc, htags, hg, Bool.not_true, Bool.false_eq_true, if_false]

theorem Delete_guard_pass {env : Env} {ra : RepositoryAPI} {rc : Repository}
    {tags : List String}
    (hP : ra.ProjectMgrExist (env.ParseRepository (ra.GetString ":splat")).1 = .ok true)
    (hA : ra.IsAuthenticated = true)
    (hPerm : ra.HasAllPerm (env.ParseRepository (ra.GetString ":splat")).1 = true)
    (hrc : initRepositoryClient env ra (ra.GetString ":splat") = .ok rc)
    (htags : deleteTagList ra rc = .ok tags)
    (hg : deleteGuard env ra rc (ra.GetString ":splat") tags = none) :
    (Delete env ra).deleted = (deleteTagsLoop rc tags [] []).2.1 := by
  unfold Delete
  simp only [hP, hA, hPerm, hrc, htags, hg, Bool.not_true, Bool.false_eq_true, if_false]
  rcases hl : deleteTagsLoop rc tags [] [] with ⟨o, deleted, notified⟩
  cases o with
  | some o => rfl
  | none =>
    simp only
    cases rc.repositoryExist deleted with
    | error e => rfl
    | ok ex =>
      cases ex with
      | true => rfl
      | false =>
        simp only [Bool.not_false, if_true]
        cases env.DeleteRepository (ra.GetString ":splat") <;> rfl

theorem detailedTag_error_of_tagFails {env : Env} {client : Repository} {t : String}
    {err : GoError} (h : tagFails env client t err) :
    detailedTag env client t = .error err := by
  unfold detailedTag getV2Manifest
  rcases h with h | ⟨digest, mediaType, payload, hp, h⟩
  · simp only [h]
  · simp only [hp]
    rcases h with h | ⟨target, hm, h⟩
    · simp only [h]
    · simp only [hm]
      rcases h with h | ⟨size, h | ⟨config, hb, hc⟩⟩
      · simp only [h]
      · simp only [h]
      · simp only [hb, hc]

theorem assemble_total (env : Env) (client : Repository) (repository : String)
    (tags : List String) (username : String) :
    (∃ rs, assemble env client repository tags username = (some rs, none)) ∨
    (∃ err, assemble env client repository tags username = (none, some err)) := by
  rw [assemble_eq]
  rcases @getDetailedTagsLoop_total env client tags [] with
    ⟨list, hl⟩ | ⟨err, hl⟩
  · have hl2 : getDetailedTags env client tags = (some list, none) := hl
    rw [hl2]
    simp only
    have hs : (∃ r, assembleSignatures env repository username = (some r, none)) ∨
        (∃ e, assembleSignatures env repository username = (none, some e)) := by
      unfold assembleSignatures
      cases env.WithNotary with
      | true => simpa using getSignatures_total env repository username
      | false => exact Or.inl ⟨_, rfl⟩
    rcases hs with ⟨r, hr⟩ | ⟨e, he⟩
    · rw [hr]
      exact Or.inl ⟨_, rfl⟩
    · rw [he]
      exact Or.inr ⟨e, rfl⟩
  · have hl2 : getDetailedTags env client tags = (none, some err) := hl
    rw [hl2]
    exact Or.inr ⟨err, rfl⟩

/-! ## Claims -/

/-- C1, evaluated where the code departs from it: the trust service holds the targets
`v1` (digest `sha256:aaa`) and `v2` (digest `sha256:bbb`), and tag `v2` now resolves
to the manifest `sha256:aaa`.  The record `assemble` returns for `v2` carries the
target of `v2`, whose digest `sha256:bbb` is not the digest of the record. -/
theorem assemble_signature_digest_mismatch :
    assemble (tableEnv true false twoTargets [] []) repushedRegistry
        "library/app" ["v2"] "admin" =
      (some [{ tag := tableTag "v2" "sha256:aaa", Signature := some ⟨"v2", "bbb"⟩,
               ScanOverview := none }], none) ∧
    (tableEnv true false twoTargets [] []).DigestFromTarget ⟨"v2", "bbb"⟩ =
      .ok "sha256:bbb" ∧
    "sha256:bbb" ≠ (tableTag "v2" "sha256:aaa").Digest := by
  decide

/-- C2 as stated fails: with the targets `v1` and `v2` listed in this order and both
of digest `sha256:aaa`, the record of tag `v1`, whose manifest digest is `sha256:aaa`,
gets no signature. -/
theorem assemble_shared_digest_first_target_dropped :
    (tableEnv true false sharedDigestTargets [] []).GetInternalTargets
        "http://notary-server:4443" "admin" "library/app" =
      .ok [⟨"v1", "aaa"⟩, ⟨"v2", "aaa"⟩] ∧
    (tableEnv true false sharedDigestTargets [] []).DigestFromTarget ⟨"v1", "aaa"⟩ =
      .ok "sha256:aaa" ∧
    (tableEnv true false sharedDigestTargets [] []).DigestFromTarget ⟨"v2", "aaa"⟩ =
      .ok "sha256:aaa" ∧
    repushedRegistry.PullManifest "v1"
        [(tableEnv true false sharedDigestTargets [] []).MediaTypeManifest] =
      .ok ("sha256:aaa", "application/vnd.docker.distribution.manifest.v2+json", []) ∧
    assemble (tableEnv true false sharedDigestTargets [] []) repushedRegistry
        "library/app" ["v1"] "admin" =
      (some [{ tag := tableTag "v1" "sha256:aaa", Signature := none,
               ScanOverview := none }], none) := by
  decide

/-- C2, amended: the trust service being configured, the manifest and config of every
tag readable, and the list of signed targets such that every digest can be decoded
and the last target `s` has the digest `D` (no target of another digest is listed
after the targets of digest `D`, so `s` is the target of digest `D` listed last, the
one the digest-keyed index keeps): `assemble` succeeds, and the record of every tag
whose manifest digest is `D` carries `s` when the tag's name is the tag name of `s`
and no signature otherwise, so a target of digest `D` listed before `s` under another
tag name is attached to no record of digest `D`; the record of a tag whose manifest
digest is the digest of no target carries no signature. -/
theorem assemble_attaches_latest_of_digest (env : Env) (client : Repository)
    (repository : String) (tags : List String) (username : String)
    (front : List Target) (s : Target) (D : String)
    (hN : env.WithNotary = true)
    (hT : env.GetInternalTargets env.InternalNotaryEndpoint username repository =
      .ok (front ++ [s]))
    (hfront : ∀ u ∈ front, ∃ d, env.DigestFromTarget u = .ok d)
    (hsD : env.DigestFromTarget s = .ok D)
    (htags : ∀ u ∈ tags, ∃ tg, detailedTag env client u = .ok tg) :
    ∃ rs, assemble env client repository tags username = (some rs, none) ∧
      ∀ (i : Nat) (t digest mediaType : String) (payload : Bytes),
        tags[i]? = some t →
        client.PullManifest t [env.MediaTypeManifest] = .ok (digest, mediaType, payload) →
        ∃ r, rs[i]? = some r ∧ r.Name = t ∧ r.Digest = digest ∧
          (digest = D →
            r.Signature = (if t = s.Tag then some s else none) ∧
            ∀ o ∈ front, o.Tag ≠ s.Tag → r.Signature ≠ some o) ∧
          ((∀ u ∈ front ++ [s], env.DigestFromTarget u ≠ .ok digest) →
            r.Signature = none) := by
  have hall : ∀ u ∈ front ++ [s], ∃ d, env.DigestFromTarget u = .ok d := by
    intro u hu
    rcases List.mem_append.mp hu with hu | hu
    · exact hfront u hu
    · rw [List.mem_singleton.mp hu]
      exact ⟨D, hsD⟩
  obtain ⟨m, hm⟩ := @getSignaturesLoop_all_ok env (front ++ [s]) SignatureMap.empty hall
  obtain ⟨hkeys, htgt, _⟩ := getSignaturesLoop_ok _ _ m hm
  have htgt2 : m.tgt = some s := by
    rw [htgt]
    simp
  have hsig : assembleSignatures env repository username = (some m, none) := by
    simp only [assembleSignatures, hN, if_true, getSignatures, hT, hm]
  obtain ⟨list, hf, hasm⟩ := assemble_success htags hsig
  refine ⟨_, hasm, ?_⟩
  intro i t digest mediaType payload hi hpull
  obtain ⟨tg, htg, hdt⟩ := forall₂_getElem? hf i t hi
  obtain ⟨hname, mt, pl, hpull2⟩ := detailedTag_ok hdt
  have hD : tg.Digest = digest := by
    rw [hpull] at hpull2
    simp only [Except.ok.injEq, Prod.mk.injEq] at hpull2
    exact hpull2.1.symm
  refine ⟨assembleItem env (some m) tg, by simp [htg], ?_, ?_, ?_, ?_⟩
  · simp [tagResp.Name, assembleItem_tag, hname]
  · simp [tagResp.Digest, assembleItem_tag, hD]
  · intro hdD
    have hin : tg.Digest ∈ m.keys := by
      rw [hD, hdD]
      exact (hkeys D).mpr (Or.inr ⟨s, by simp, hsD⟩)
    have hlook : lookupSignature (some m) tg.Digest = some s := by
      simp only [lookupSignature, SignatureMap.get, hin, if_true, htgt2]
    have hS : (assembleItem env (some m) tg).Signature =
        (if t = s.Tag then some s else none) := by
      rw [assembleItem_Signature, hlook, hname]
    refine ⟨hS, ?_⟩
    intro o _ hne
    rw [hS]
    by_cases hts : t = s.Tag
    · rw [if_pos hts]
      intro hso
      exact hne (by rw [Option.some.inj hso])
    · rw [if_neg hts]
      exact fun h => Option.noConfusion h
  · intro hnone
    have hnin : tg.Digest ∉ m.keys := by
      rw [hD]
      intro hin
      rcases (hkeys digest).mp hin with hin | ⟨u, hu, hud⟩
      · simp [SignatureMap.empty] at hin
      · exact hnone u hu hud
    rw [assembleItem_Signature]
    simp only [lookupSignature, SignatureMap.get, hnin, if_false]

theorem assemble_attaches_latest_of_digest_witness :
    ∃ rs, assemble (tableEnv true false [⟨"v2", "aaa"⟩, ⟨"v1", "aaa"⟩] [] [])
        (tableClient [("v1", "sha256:aaa"), ("v2", "sha256:aaa"), ("v3", "sha256:ccc")])
        "library/app" ["v2", "v1", "v3"] "admin" = (some rs, none) ∧
      ∀ (i : Nat) (t digest mediaType : String) (payload : Bytes),
        ["v2", "v1", "v3"][i]? = some t →
        (tableClient [("v1", "sha256:aaa"), ("v2", "sha256:aaa"),
            ("v3", "sha256:ccc")]).PullManifest t
          [(tableEnv true false [⟨"v2", "aaa"⟩, ⟨"v1", "aaa"⟩] [] []).MediaTypeManifest] =
            .ok (digest, mediaType, payload) →
        ∃ r, rs[i]? = some r ∧ r.Name = t ∧ r.Digest = digest ∧
          (digest = "sha256:aaa" →
            r.Signature = (if t = (⟨"v1", "aaa"⟩ : Target).Tag then some ⟨"v1", "aaa"⟩
              else none) ∧
            ∀ o ∈ [(⟨"v2", "aaa"⟩ : Target)], o.Tag ≠ (⟨"v1", "aaa"⟩ : Target).Tag →
              r.Signature ≠ some o) ∧
          ((∀ u ∈ [(⟨"v2", "aaa"⟩ : Target)] ++ [⟨"v1", "aaa"⟩],
              (tableEnv true false [⟨"v2", "aaa"⟩, ⟨"v1", "aaa"⟩] [] []).DigestFromTarget u ≠
                .ok digest) →
            r.Signature = none) :=
  assemble_attaches_latest_of_digest
    (tableEnv true false [⟨"v2", "aaa"⟩, ⟨"v1", "aaa"⟩] [] [])
    (tableClient [("v1", "sha256:aaa"), ("v2", "sha256:aaa"), ("v3", "sha256:ccc")])
    "library/app" ["v2", "v1", "v3"] "admin" [⟨"v2", "aaa"⟩] ⟨"v1", "aaa"⟩
    "sha256:aaa" rfl rfl
    (by intro u hu; rw [List.mem_singleton.mp hu]; exact ⟨"sha256:aaa", by decide⟩)
    (by decide)
    (by
      intro u hu
      simp only [List.mem_cons, List.mem_singleton, List.not_mem_nil, or_false] at hu
      rcases hu with rfl | rfl | rfl
      · exact ⟨tableTag "v2" "sha256:aaa", by decide⟩
      · exact ⟨tableTag "v1" "sha256:aaa", by decide⟩
      · exact ⟨tableTag "v3" "sha256:ccc", by decide⟩)

/-- The records of the three tags in the setting of the witness above: `v2`, whose
target is listed before the target of `v1` with the same digest, carries no signature;
`v1` carries its target; `v3`, whose digest no target has, carries none. -/
theorem assemble_latest_of_digest_records :
    assemble (tableEnv true false [⟨"v2", "aaa"⟩, ⟨"v1", "aaa"⟩] [] [])
        (tableClient [("v1", "sha256:aaa"), ("v2", "sha256:aaa"), ("v3", "sha256:ccc")])
        "library/app" ["v2", "v1", "v3"] "admin" =
      (some [{ tag := tableTag "v2" "sha256:aaa", Signature := none, ScanOverview := none },
             { tag := tableTag "v1" "sha256:aaa", Signature := some ⟨"v1", "aaa"⟩,
               ScanOverview := none },
             { tag := tableTag "v3" "sha256:ccc", Signature := none,
               ScanOverview := none }], none) := by
  decide

/-- C3: when the store holds the overview `data` for the digest and the scan job of
`data` exists with a status other than finished, `getScanOverview` returns `data` with
the job's status, severity zero, no component overview and an empty details key; and
with the scanner configured, that is the overview of every record of that digest in a
result of `assemble`. -/
theorem getScanOverview_unfinished (env : Env) (digest tagName : String)
    (data : ImgScanOverview) (job : ScanJob)
    (hdata : (env.GetImgScanOverview digest).1 = some data)
    (hjob : env.GetScanJob data.JobID = (some job, none))
    (hst : job.Status ≠ JobFinished) :
    getScanOverview env digest tagName =
        some { data with Status := job.Status, Sev := 0, CompOverview := none,
                         DetailsKey := "" } ∧
      ∀ (client : Repository) (repository : String) (tags : List String)
        (username : String) (rs : List tagResp) (r : tagResp),
        env.WithClair = true →
        assemble env client repository tags username = (some rs, none) →
        r ∈ rs → r.Digest = digest →
        r.ScanOverview =
          some { data with Status := job.Status, Sev := 0, CompOverview := none,
                           DetailsKey := "" } := by
  have key : ∀ tn : String, getScanOverview env digest tn =
      some { data with Status := job.Status, Sev := 0, CompOverview := none,
                       DetailsKey := "" } := by
    intro tn
    unfold getScanOverview
    simp only [hdata, hjob]
    rw [if_pos hst]
  refine ⟨key tagName, ?_⟩
  intro client repository tags username rs r hc h hr hd
  obtain ⟨list, signatures, _, _, hrs⟩ := assemble_ok h
  subst hrs
  obtain ⟨t, _, rfl⟩ := List.mem_map.mp hr
  simp only [tagResp.Digest, assembleItem_tag] at hd
  rw [assembleItem_ScanOverview, if_pos hc, hd]
  exact key _

theorem getScanOverview_unfinished_witness :
    getScanOverview (tableEnv true true [] [("sha256:aaa", staleOverview)] [(8, ⟨"running"⟩)])
        "sha256:aaa" "v1" =
      some { staleOverview with Status := "running", Sev := 0, CompOverview := none,
                                DetailsKey := "" } :=
  (getScanOverview_unfinished
    (tableEnv true true [] [("sha256:aaa", staleOverview)] [(8, ⟨"running"⟩)])
    "sha256:aaa" "v1" staleOverview ⟨"running"⟩ (by decide) (by decide) (by decide)).1

/-- C4: in `Delete` with the trust service configured, once the request has passed
the checks that precede the guard and the signed targets have been fetched: if any tag
of the list resolves to a digest found in the index of signed targets, `DeleteTag` is
called for no tag and the repository record is kept; and when the tags before the
first such tag `t` resolve to digests not in the index, the request ends in
`CustomAbort(412, "tag t is signed")`. -/
theorem Delete_signed_tag_refused (env : Env) (ra : RepositoryAPI) (rc : Repository)
    (signedTags : Option SignatureMap) (tags : List String)
    (hN : env.WithNotary = true)
    (hP : ra.ProjectMgrExist (env.ParseRepository (ra.GetString ":splat")).1 = .ok true)
    (hA : ra.IsAuthenticated = true)
    (hPerm : ra.HasAllPerm (env.ParseRepository (ra.GetString ":splat")).1 = true)
    (hrc : initRepositoryClient env ra (ra.GetString ":splat") = .ok rc)
    (htags : deleteTagList ra rc = .ok tags)
    (hsig : getSignatures env ra.GetUsername (ra.GetString ":splat") = (signedTags, none)) :
    (∀ (t digest : String) (exist : Bool), t ∈ tags →
      rc.ManifestExist t = .ok (digest, exist) → hasKey signedTags digest = true →
      (Delete env ra).deleted = [] ∧ (Delete env ra).repositoryDeleted = false ∧
        (Delete env ra).outcome ≠ .returned) ∧
    (∀ (front : List String) (t : String) (back : List String) (digest : String)
      (exist : Bool), tags = front ++ t :: back →
      (∀ u ∈ front, ∃ d e, rc.ManifestExist u = .ok (d, e) ∧ hasKey signedTags d = false) →
      rc.ManifestExist t = .ok (digest, exist) → hasKey signedTags digest = true →
      Delete env ra =
        { outcome := .CustomAbort 412 ("tag " ++ t ++ " is signed"), deleted := [],
          notified := [], repositoryDeleted := false }) := by
  have hguard : deleteGuard env ra rc (ra.GetString ":splat") tags =
      deleteGuardLoop rc signedTags tags := by
    simp only [deleteGuard, hN, if_true, hsig]
  constructor
  · intro t digest exist hin ht hk
    obtain ⟨o, ho⟩ := @deleteGuardLoop_signed_isSome rc signedTags
      tags t digest exist hin ht hk
    have hne : o ≠ .returned := by
      intro hret
      subst hret
      clear hguard hin ht hk htags
      induction tags with
      | nil => simp [deleteGuardLoop] at ho
      | cons u rest ih =>
        unfold deleteGuardLoop at ho
        cases hu : rc.ManifestExist u with
        | error e => simp [hu] at ho
        | ok v =>
          obtain ⟨d, e⟩ := v
          simp only [hu] at ho
          by_cases hd : hasKey signedTags d = true
          · simp [hd] at ho
          · simp only [hd, if_false] at ho
            exact ih ho
    rw [Delete_guard_abort hP hA hPerm hrc htags (hguard.trans ho)]
    exact ⟨rfl, rfl, hne⟩
  · intro front t back digest exist heq hfront ht hk
    have ho := @deleteGuardLoop_first_signed rc signedTags
      front t back digest exist hfront ht hk
    rw [← heq] at ho
    exact Delete_guard_abort hP hA hPerm hrc htags (hguard.trans ho)

theorem Delete_signed_tag_refused_witness :
    Delete (trustEnv [⟨"v2", "bbb"⟩] (tableClient [("v1", "sha256:aaa"), ("v2", "sha256:bbb")]))
        (deleteRequest "library/app" "" "admin") =
      { outcome := .CustomAbort 412 ("tag " ++ "v2" ++ " is signed"), deleted := [],
        notified := [], repositoryDeleted := false } :=
  (Delete_signed_tag_refused
    (trustEnv [⟨"v2", "bbb"⟩] (tableClient [("v1", "sha256:aaa"), ("v2", "sha256:bbb")]))
    (deleteRequest "library/app" "" "admin")
    (tableClient [("v1", "sha256:aaa"), ("v2", "sha256:bbb")])
    (some { keys := ["sha256:bbb"], tgt := some ⟨"v2", "bbb"⟩ }) ["v1", "v2"]
    rfl rfl rfl rfl rfl rfl rfl).2 ["v1"] "v2" [] "sha256:bbb" true rfl
    (by
      intro u hu
      rw [List.mem_singleton.mp hu]
      exact ⟨"sha256:aaa", true, rfl, by decide⟩)
    rfl (by decide)

/-- C5 as stated fails: the only signed target is bound to tag `v2`, tag `v1`
resolves to the same digest, and the request to delete `v1` is refused as signed. -/
theorem Delete_refuses_on_digest_of_other_tag :
    Delete (trustEnv [⟨"v2", "aaa"⟩] repushedRegistry)
        (deleteRequest "library/app" "v1" "admin") =
      { outcome := .CustomAbort 412 "tag v1 is signed", deleted := [], notified := [],
        repositoryDeleted := false } ∧
    repushedRegistry.ManifestExist "v1" = .ok ("sha256:aaa", true) ∧
    (trustEnv [⟨"v2", "aaa"⟩] repushedRegistry).GetInternalTargets
        "http://notary-server:4443" "library/app" "admin" = .ok [⟨"v2", "aaa"⟩] ∧
    ¬ ∃ s ∈ [(⟨"v2", "aaa"⟩ : Target)],
        (trustEnv [⟨"v2", "aaa"⟩] repushedRegistry).DigestFromTarget s = .ok "sha256:aaa" ∧
        s.Tag = "v1" := by
  refine ⟨by decide, by decide, by decide, ?_⟩
  simp

/-- C5, amended: for a request to delete the single tag `t` that has passed the checks
preceding the guard, with the trust service configured, `targets` the signed targets
`Delete` obtained and `digest` the manifest digest of `t`: the request is refused as
signed (abort 412 `tag t is signed`, no call to `DeleteTag`) if and only if some
target has the digest `digest`; the tag name of the target is not compared. -/
theorem Delete_refuses_iff_digest_signed (env : Env) (ra : RepositoryAPI)
    (rc : Repository) (targets : List Target) (digest : String) (exist : Bool)
    (hN : env.WithNotary = true)
    (hP : ra.ProjectMgrExist (env.ParseRepository (ra.GetString ":splat")).1 = .ok true)
    (hA : ra.IsAuthenticated = true)
    (hPerm : ra.HasAllPerm (env.ParseRepository (ra.GetString ":splat")).1 = true)
    (hrc : initRepositoryClient env ra (ra.GetString ":splat") = .ok rc)
    (htag : (ra.GetString ":tag").length ≠ 0)
    (hT : env.GetInternalTargets env.InternalNotaryEndpoint (ra.GetString ":splat")
      ra.GetUsername = .ok targets)
    (hdec : ∀ s ∈ targets, ∃ d, env.DigestFromTarget s = .ok d)
    (hM : rc.ManifestExist (ra.GetString ":tag") = .ok (digest, exist)) :
    ((Delete env ra).outcome =
        .CustomAbort 412 ("tag " ++ ra.GetString ":tag" ++ " is signed") ∧
      (Delete env ra).deleted = []) ↔
    ∃ s ∈ targets, env.DigestFromTarget s = .ok digest := by
  obtain ⟨m, hm⟩ := @getSignaturesLoop_all_ok env targets SignatureMap.empty hdec
  obtain ⟨hkeys, _, _⟩ := getSignaturesLoop_ok _ _ m hm
  have hsig : getSignatures env ra.GetUsername (ra.GetString ":splat") = (some m, none) := by
    simp only [getSignatures, hT, hm]
  have htags : deleteTagList ra rc = .ok [ra.GetString ":tag"] := by
    simp only [deleteTagList, htag, if_false, List.nil_append]
  have hkey : hasKey (some m) digest = true ↔
      ∃ s ∈ targets, env.DigestFromTarget s = .ok digest := by
    simp only [hasKey, decide_eq_true_eq, hkeys digest, SignatureMap.empty,
      List.not_mem_nil, false_or]
  have hguard : deleteGuard env ra rc (ra.GetString ":splat") [ra.GetString ":tag"] =
      if hasKey (some m) digest then
        some (.CustomAbort StatusPreconditionFailed
          ("tag " ++ ra.GetString ":tag" ++ " is signed"))
      else none := by
    simp only [deleteGuard, hN, if_true, hsig, deleteGuardLoop, hM]
  rw [← hkey]
  constructor
  · rintro ⟨_, hdel⟩
    by_contra hk
    simp only [hk, if_false] at hguard
    rw [Delete_guard_pass hP hA hPerm hrc htags hguard] at hdel
    obtain ⟨more, hmore, hne⟩ := @deleteTagsLoop_deleted rc [ra.GetString ":tag"] [] []
    rw [hmore, List.nil_append] at hdel
    exact hne (by simp) hdel
  · intro hk
    simp only [hk, if_true] at hguard
    rw [Delete_guard_abort hP hA hPerm hrc htags hguard]
    exact ⟨rfl, rfl⟩

theorem Delete_refuses_iff_digest_signed_witness :
    ((Delete (trustEnv [⟨"v2", "aaa"⟩] repushedRegistry)
          (deleteRequest "library/app" "v1" "admin")).outcome =
        .CustomAbort 412 ("tag " ++ (deleteRequest "library/app" "v1" "admin").GetString ":tag"
          ++ " is signed") ∧
      (Delete (trustEnv [⟨"v2", "aaa"⟩] repushedRegistry)
          (deleteRequest "library/app" "v1" "admin")).deleted = []) ↔
    ∃ s ∈ [(⟨"v2", "aaa"⟩ : Target)],
      (trustEnv [⟨"v2", "aaa"⟩] repushedRegistry).DigestFromTarget s = .ok "sha256:aaa" :=
  Delete_refuses_iff_digest_signed (trustEnv [⟨"v2", "aaa"⟩] repushedRegistry)
    (deleteRequest "library/app" "v1" "admin") repushedRegistry [⟨"v2", "aaa"⟩]
    "sha256:aaa" true rfl rfl rfl rfl rfl (by decide) rfl
    (by intro s hs; rw [List.mem_singleton.mp hs]; exact ⟨"sha256:aaa", rfl⟩)
    rfl

/-- C6: `assemble` never returns an error together with a list; when reading the
manifest or config of a tag fails, the tags before it being readable, it returns the
error of that tag and `nil`; and when every tag is readable and the trust service is
configured, it returns the error of the fetch of the signed targets, or of the first
target whose digest cannot be decoded, and `nil`. -/
theorem assemble_all_or_nothing (env : Env) (client : Repository) (repository : String)
    (tags : List String) (username : String) :
    ((assemble env client repository tags username).2 ≠ none →
      (assemble env client repository tags username).1 = none) ∧
    (∀ (front : List String) (t : String) (back : List String) (err : GoError),
      tags = front ++ t :: back →
      (∀ u ∈ front, ∃ tg, detailedTag env client u = .ok tg) →
      tagFails env client t err →
      assemble env client repository tags username = (none, some err)) ∧
    (∀ err : GoError,
      (∀ u ∈ tags, ∃ tg, detailedTag env client u = .ok tg) →
      env.WithNotary = true →
      env.GetInternalTargets env.InternalNotaryEndpoint username repository = .error err →
      assemble env client repository tags username = (none, some err)) ∧
    (∀ (front : List Target) (s : Target) (back : List Target) (err : GoError),
      (∀ u ∈ tags, ∃ tg, detailedTag env client u = .ok tg) →
      env.WithNotary = true →
      env.GetInternalTargets env.InternalNotaryEndpoint username repository =
        .ok (front ++ s :: back) →
      (∀ u ∈ front, ∃ d, env.DigestFromTarget u = .ok d) →
      env.DigestFromTarget s = .error err →
      assemble env client repository tags username = (none, some err)) := by
  have hsigErr : ∀ err : GoError,
      (∀ u ∈ tags, ∃ tg, detailedTag env client u = .ok tg) →
      env.WithNotary = true →
      getSignatures env repository username = (none, some err) →
      assemble env client repository tags username = (none, some err) := by
    intro err htags hN hs
    obtain ⟨list, hl⟩ := @getDetailedTagsLoop_all_ok env client tags []
      htags
    have hl2 : getDetailedTags env client tags = (some list, none) := hl
    rw [assemble_eq, hl2]
    simp only [assembleSignatures, hN, if_true, hs]
  refine ⟨?_, ?_, ?_, ?_⟩
  · intro h
    rcases assemble_total env client repository tags username with ⟨rs, hr⟩ | ⟨e, he⟩
    · rw [hr] at h
      exact absurd rfl h
    · rw [he]
  · intro front t back err heq hfront hfail
    have hl : getDetailedTags env client tags = (none, some err) := by
      rw [heq]
      exact getDetailedTagsLoop_first_error front t back err [] hfront
        (detailedTag_error_of_tagFails hfail)
    rw [assemble_eq, hl]
  · intro err htags hN hT
    apply hsigErr err htags hN
    simp only [getSignatures, hT]
  · intro front s back err htags hN hT hfront hs
    apply hsigErr err htags hN
    simp only [getSignatures, hT]
    exact getSignaturesLoop_first_error front s back err _ hfront hs

theorem assemble_all_or_nothing_witness :
    assemble (tableEnv true false [⟨"v1", "aaa"⟩, ⟨"v2", ""⟩] [] [])
        (tableClient [("v1", "sha256:aaa")]) "library/app" ["v1", "v3", "v1"] "admin" =
      (none, some (.registry 404 "manifest unknown")) ∧
    assemble (tableEnv true false [⟨"v1", "aaa"⟩, ⟨"v2", ""⟩] [] [])
        (tableClient [("v1", "sha256:aaa")]) "library/app" ["v1"] "admin" =
      (none, some (.other "no valid hash, expecting sha256")) :=
  ⟨(assemble_all_or_nothing (tableEnv true false [⟨"v1", "aaa"⟩, ⟨"v2", ""⟩] [] [])
      (tableClient [("v1", "sha256:aaa")]) "library/app" ["v1", "v3", "v1"] "admin").2.1
      ["v1"] "v3" ["v1"] (.registry 404 "manifest unknown") rfl
      (by
        intro u hu
        rw [List.mem_singleton.mp hu]
        exact ⟨tableTag "v1" "sha256:aaa", by decide⟩)
      (Or.inl (by decide)),
   (assemble_all_or_nothing (tableEnv true false [⟨"v1", "aaa"⟩, ⟨"v2", ""⟩] [] [])
      (tableClient [("v1", "sha256:aaa")]) "library/app" ["v1"] "admin").2.2.2
      [⟨"v1", "aaa"⟩] ⟨"v2", ""⟩ [] (.other "no valid hash, expecting sha256")
      (by
        intro u hu
        rw [List.mem_singleton.mp hu]
        exact ⟨tableTag "v1" "sha256:aaa", by decide⟩)
      rfl rfl
      (by
        intro u hu
        rw [List.mem_singleton.mp hu]
        exact ⟨"sha256:aaa", by decide⟩)
      (by decide)⟩

/-- C7: when `assemble` returns no error on the tag list `tags`, its result is a list
of as many records as there are tags, and the record at each index carries the tag at
that index as its name and, as its digest, the digest the registry returned when the
manifest of that tag was pulled. -/
theorem assemble_one_record_per_tag (env : Env) (client : Repository)
    (repository : String) (tags : List String) (username : String)
    (h : (assemble env client repository tags username).2 = none) :
    ∃ rs, assemble env client repository tags username = (some rs, none) ∧
      rs.length = tags.length ∧
      ∀ (i : Nat) (t : String), tags[i]? = some t →
        ∃ r mediaType payload, rs[i]? = some r ∧ r.Name = t ∧
          client.PullManifest t [env.MediaTypeManifest] =
            .ok (r.Digest, mediaType, payload) := by
  rcases assemble_total env client repository tags username with ⟨rs, hr⟩ | ⟨e, he⟩
  · refine ⟨rs, hr, ?_⟩
    obtain ⟨list, signatures, hl, _, hrs⟩ := assemble_ok hr
    obtain ⟨news, hn, hf⟩ := getDetailedTagsLoop_ok tags [] list hl
    rw [List.nil_append] at hn
    subst hn
    subst hrs
    refine ⟨by rw [List.length_map]; exact hf.length_eq.symm, ?_⟩
    intro i t hi
    obtain ⟨tg, htg, hdt⟩ := forall₂_getElem? hf i t hi
    obtain ⟨hname, mt, pl, hpull⟩ := detailedTag_ok hdt
    refine ⟨assembleItem env signatures tg, mt, pl, by simp [htg], ?_, ?_⟩
    · simp [tagResp.Name, assembleItem_tag, hname]
    · simpa [tagResp.Digest, assembleItem_tag] using hpull
  · rw [he] at h
    simp at h

theorem assemble_one_record_per_tag_witness :
    ∃ rs, assemble (tableEnv true false twoTargets [] []) repushedRegistry "library/app"
        ["v2", "v1", "v2"] "admin" = (some rs, none) ∧
      rs.length = ["v2", "v1", "v2"].length ∧
      ∀ (i : Nat) (t : String), ["v2", "v1", "v2"][i]? = some t →
        ∃ r mediaType payload, rs[i]? = some r ∧ r.Name = t ∧
          repushedRegistry.PullManifest t
              [(tableEnv true false twoTargets [] []).MediaTypeManifest] =
            .ok (r.Digest, mediaType, payload) :=
  assemble_one_record_per_tag (tableEnv true false twoTargets [] []) repushedRegistry
    "library/app" ["v2", "v1", "v2"] "admin" (by decide)

/-- C8: when the registry lists the tags `ts`, `getSimpleTags` returns, with no error,
a list in ascending order that is a permutation of `ts`. -/
theorem getSimpleTags_sorted_perm (client : Repository) (ts : List String)
    (h : client.ListTag = .ok ts) :
    ∃ l, getSimpleTags client = (some l, none) ∧ l.Sorted (· ≤ ·) ∧ l.Perm ts := by
  refine ⟨sortStrings ts, ?_, ?_, ?_⟩
  · simp only [getSimpleTags, h, List.nil_append]
  · exact List.sorted_insertionSort (· ≤ ·) ts
  · exact List.perm_insertionSort (· ≤ ·) ts

theorem getSimpleTags_sorted_perm_witness :
    ∃ l, getSimpleTags (tableClient [("v2", "sha256:bbb"), ("latest", "sha256:bbb"),
        ("v1", "sha256:aaa"), ("v2", "sha256:bbb")]) = (some l, none) ∧
      l.Sorted (· ≤ ·) ∧ l.Perm ["v2", "latest", "v1", "v2"] :=
  getSimpleTags_sorted_perm (tableClient [("v2", "sha256:bbb"), ("latest", "sha256:bbb"),
    ("v1", "sha256:aaa"), ("v2", "sha256:bbb")]) ["v2", "latest", "v1", "v2"] rfl

/-- C9: when the tag listing fails with a registry error of status 404,
`getSimpleTags` returns the empty list (not `nil`) and no error; when it fails with
any other error, `getSimpleTags` returns `nil` and that error. -/
theorem getSimpleTags_listing_error (client : Repository) (err : GoError)
    (h : client.ListTag = .error err) :
    ((∃ detail, err = .registry 404 detail) → getSimpleTags client = (some [], none)) ∧
    ((∀ detail, err ≠ .registry 404 detail) → getSimpleTags client = (none, some err)) := by
  constructor
  · rintro ⟨detail, rfl⟩
    simp only [getSimpleTags, h, StatusNotFound, if_true]
  · intro hne
    cases err with
    | other s => simp only [getSimpleTags, h]
    | registry c d =>
      have hc : c ≠ StatusNotFound := by
        intro hc
        exact hne d (by rw [hc]; rfl)
      simp only [getSimpleTags, h, hc, if_false]

theorem getSimpleTags_listing_error_witness :
    getSimpleTags { tableClient [] with ListTag := .error (.registry 404 "repository name not known to registry") } =
      (some [], none) ∧
    getSimpleTags { tableClient [] with ListTag := .error (.registry 401 "unauthorized") } =
      (none, some (.registry 401 "unauthorized")) :=
  ⟨(getSimpleTags_listing_error
      { tableClient [] with ListTag := .error (.registry 404 "repository name not known to registry") }
      (.registry 404 "repository name not known to registry") rfl).1 ⟨_, rfl⟩,
   (getSimpleTags_listing_error
      { tableClient [] with ListTag := .error (.registry 401 "unauthorized") }
      (.registry 401 "unauthorized") rfl).2
      (by intro d hd; simp only [GoError.registry.injEq] at hd; exact absurd hd.1 (by decide))⟩

/-- C10: in every result of `assemble`, no record has a scan overview when the
scanner is not configured, and no record has a signature when the trust service is
not configured. -/
theorem assemble_optional_backends (env : Env) (client : Repository)
    (repository : String) (tags : List String) (username : String) (rs : List tagResp)
    (h : assemble env client repository tags username = (some rs, none)) :
    (env.WithClair = false → ∀ r ∈ rs, r.ScanOverview = none) ∧
    (env.WithNotary = false → ∀ r ∈ rs, r.Signature = none) := by
  obtain ⟨list, signatures, _, hsig, hrs⟩ := assemble_ok h
  subst hrs
  constructor
  · intro hc r hr
    obtain ⟨t, _, rfl⟩ := List.mem_map.mp hr
    rw [assembleItem_ScanOverview, hc]
    rfl
  · intro hN r hr
    obtain ⟨t, _, rfl⟩ := List.mem_map.mp hr
    simp only [assembleSignatures, hN, Bool.false_eq_true, if_false, Prod.mk.injEq,
      and_true] at hsig
    subst hsig
    rw [assembleItem_Signature]
    simp [lookupSignature, SignatureMap.get, SignatureMap.empty]

theorem assemble_optional_backends_witness :
    assemble
        (tableEnv false false [⟨"v1", "aaa"⟩] [("sha256:aaa", staleOverview)]
          [(8, ⟨"finished"⟩)])
        repushedRegistry "library/app" ["v1"] "admin" =
      (some [{ tag := tableTag "v1" "sha256:aaa", Signature := none,
               ScanOverview := none }], none) ∧
    (∀ r ∈ [({ tag := tableTag "v1" "sha256:aaa", Signature := none,
               ScanOverview := none } : tagResp)], r.ScanOverview = none) ∧
    (∀ r ∈ [({ tag := tableTag "v1" "sha256:aaa", Signature := none,
               ScanOverview := none } : tagResp)], r.Signature = none) :=
  ⟨by decide,
   (assemble_optional_backends
      (tableEnv false false [⟨"v1", "aaa"⟩] [("sha256:aaa", staleOverview)]
        [(8, ⟨"finished"⟩)])
      repushedRegistry "library/app" ["v1"] "admin" _ (by decide)).1 rfl,
   (assemble_optional_backends
      (tableEnv false false [⟨"v1", "aaa"⟩] [("sha256:aaa", staleOverview)]
        [(8, ⟨"finished"⟩)])
      repushedRegistry "library/app" ["v1"] "admin" _ (by decide)).2 rfl⟩

/-- C14, evaluated where the code departs from it: the overview lookup returns an
error together with a record, the scan job of the record exists and is finished; the
error is only logged and `getScanOverview` returns the record, not `nil`. -/
theorem getScanOverview_error_with_record :
    overviewWithError.GetImgScanOverview "sha256:aaa" =
      (some staleOverview, some (.other "database is locked")) ∧
    getScanOverview overviewWithError "sha256:aaa" "v1" = some staleOverview := by
  decide

/-- The failures on which `getScanOverview` does return `nil`: the overview lookup
returns no record, with or without an error, or the lookup of the record's scan job
returns an error or no job; and the tag argument does not influence the result. -/
theorem getScanOverview_nil_on_failure (env : Env) (digest tagName : String) :
    ((env.GetImgScanOverview digest).1 = none → getScanOverview env digest tagName = none) ∧
    (∀ data : ImgScanOverview, (env.GetImgScanOverview digest).1 = some data →
      ((env.GetScanJob data.JobID).2 ≠ none ∨ (env.GetScanJob data.JobID).1 = none) →
      getScanOverview env digest tagName = none) ∧
    (∀ other : String, getScanOverview env digest other = getScanOverview env digest tagName) := by
  refine ⟨?_, ?_, ?_⟩
  · intro h
    unfold getScanOverview
    simp only [h]
  · intro data hd hj
    unfold getScanOverview
    simp only [hd]
    rcases hjob : env.GetScanJob data.JobID with ⟨job, err⟩
    rw [hjob] at hj
    cases job <;> cases err <;> first | rfl | simp at hj
  · intro other
    rfl

theorem getScanOverview_nil_on_failure_witness :
    getScanOverview (tableEnv true true [] [("sha256:aaa", staleOverview)] []) "sha256:bbb" "v1" =
      none ∧
    getScanOverview (tableEnv true true [] [("sha256:aaa", staleOverview)] []) "sha256:aaa" "v1" =
      none :=
  ⟨(getScanOverview_nil_on_failure
      (tableEnv true true [] [("sha256:aaa", staleOverview)] []) "sha256:bbb" "v1").1
      (by decide),
   (getScanOverview_nil_on_failure
      (tableEnv true true [] [("sha256:aaa", staleOverview)] []) "sha256:aaa" "v1").2.1
      staleOverview (by decide) (Or.inr (by decide))⟩

/-- C15, evaluated where the code departs from it: user `admin` works on repository
`library/app`, whose tag `v1` is signed.  `assemble` asks the trust service for the
targets of repository `library/app` on behalf of `admin` and shows `v1` as signed;
`Delete` asks for the targets of repository `admin` on behalf of `library/app`, gets
an empty index, and deletes `v1`. -/
theorem Delete_queries_with_swapped_roles :
    getSignatures (roleEnv (tableClient [("v1", "sha256:aaa")])) "library/app" "admin" =
      (some { keys := ["sha256:aaa"], tgt := some ⟨"v1", "aaa"⟩ }, none) ∧
    assemble (roleEnv (tableClient [("v1", "sha256:aaa")])) (tableClient [("v1", "sha256:aaa")])
        "library/app" ["v1"] "admin" =
      (some [{ tag := tableTag "v1" "sha256:aaa", Signature := some ⟨"v1", "aaa"⟩,
               ScanOverview := none }], none) ∧
    deleteGuard (roleEnv (tableClient [("v1", "sha256:aaa")]))
        (deleteRequest "library/app" "v1" "admin") (tableClient [("v1", "sha256:aaa")])
        "library/app" ["v1"] = none ∧
    Delete (roleEnv (tableClient [("v1", "sha256:aaa")]))
        (deleteRequest "library/app" "v1" "admin") =
      { outcome := .returned, deleted := ["v1"], notified := ["v1"],
        repositoryDeleted := true } := by
  decide

/-- The trust-service query behind the index of `Delete`: the guard reads the answer
to `GetInternalTargets(endpoint, repoName, username)`, the repository name in the
place of the user name and the user name in the place of the repository, whereas
`assemble` reads the answer to `GetInternalTargets(endpoint, username, repository)`. -/
theorem Delete_index_query (env : Env) (ra : RepositoryAPI) (rc : Repository)
    (repoName : String) (tags : List String) (hN : env.WithNotary = true) :
    deleteGuard env ra rc repoName tags =
      (match env.GetInternalTargets env.InternalNotaryEndpoint repoName ra.GetUsername with
       | .error err =>
         some (.HandleInternalServerError
           ("failed to get signatures for repository " ++ repoName ++ ": " ++ err.Error))
       | .ok targets =>
         match getSignaturesLoop env targets SignatureMap.empty with
         | (_, some err) =>
           some (.HandleInternalServerError
             ("failed to get signatures for repository " ++ repoName ++ ": " ++ err.Error))
         | (signedTags, none) => deleteGuardLoop rc signedTags tags) ∧
    assembleSignatures env repoName ra.GetUsername =
      (match env.GetInternalTargets env.InternalNotaryEndpoint ra.GetUsername repoName with
       | .error err => (none, some err)
       | .ok targets => getSignaturesLoop env targets SignatureMap.empty) := by
  constructor
  · simp only [deleteGuard, hN, if_true, getSignatures]
    cases env.GetInternalTargets env.InternalNotaryEndpoint repoName ra.GetUsername <;> rfl
  · simp only [assembleSignatures, hN, if_true, getSignatures]

/-- C11 as stated fails: the encoding of a record without signature and without scan
overview has the key `signature`, with the value `null`. -/
theorem tagResp_json_signature_null :
    jsonKeys (tagResp.jsonFields (fun _ => "") (fun _ => "")
        { tag := tableTag "v1" "sha256:aaa", Signature := none, ScanOverview := none }) =
      ["digest", "name", "architecture", "os", "docker_version", "author", "created",
       "signature"] ∧
    (tagResp.jsonFields (fun _ => "") (fun _ => "")
        { tag := tableTag "v1" "sha256:aaa", Signature := none, ScanOverview := none }).lookup
      "signature" = some JSONValue.null := by
  decide

/-- C11, amended: the encoding of a `tagResp` always has the key `signature`, whose
value is `null` exactly when the record has no signature; it has the key
`scan_overview` exactly when the record has a scan overview. -/
theorem tagResp_json_keys (marshalTarget : Target → String)
    (marshalOverview : ImgScanOverview → String) (r : tagResp) :
    "signature" ∈ jsonKeys (tagResp.jsonFields marshalTarget marshalOverview r) ∧
    ((tagResp.jsonFields marshalTarget marshalOverview r).lookup "signature" =
        some JSONValue.null ↔ r.Signature = none) ∧
    ("scan_overview" ∈ jsonKeys (tagResp.jsonFields marshalTarget marshalOverview r) ↔
      r.ScanOverview ≠ none) := by
  obtain ⟨t, sg, ov⟩ := r
  refine ⟨?_, ?_, ?_⟩
  · simp [jsonKeys, tagResp.jsonFields, tag.jsonFields]
  · cases sg <;>
      simp [tagResp.jsonFields, tag.jsonFields, List.lookup]
  · cases ov <;>
      simp [jsonKeys, tagResp.jsonFields, tag.jsonFields]

/-! ## Lemmas on path segments and on the matchers -/

theorem splitSlash_ne_nil : ∀ cs : List Char, splitSlash cs ≠ []
  | [] => by simp [splitSlash]
  | c :: cs => by
    rw [splitSlash]
    split
    · simp
    · split <;> simp

theorem splitSlash_slash (cs : List Char) :
    splitSlash ('/' :: cs) = [] :: splitSlash cs := by
  rw [splitSlash, if_pos rfl]

theorem splitSlash_cons_of_ne {c : Char} (hc : c ≠ '/') (cs : List Char) :
    splitSlash (c :: cs) =
      match splitSlash cs with
      | [] => [[c]]
      | s :: ss => (c :: s) :: ss := by
  rw [splitSlash, if_neg hc]

theorem splitSlash_of_free : ∀ seg : List Char, '/' ∉ seg → splitSlash seg = [seg]
  | [], _ => rfl
  | c :: cs, h => by
    have hc : c ≠ '/' := fun e => h (by simp [e])
    have hcs : '/' ∉ cs := fun e => h (List.mem_cons_of_mem c e)
    rw [splitSlash_cons_of_ne hc, splitSlash_of_free cs hcs]

theorem splitSlash_free_append : ∀ (seg rest : List Char), '/' ∉ seg →
    splitSlash (seg ++ '/' :: rest) = seg :: splitSlash rest
  | [], rest, _ => by
    rw [List.nil_append, splitSlash_slash]
  | c :: cs, rest, h => by
    have hc : c ≠ '/' := fun e => h (by simp [e])
    have hcs : '/' ∉ cs := fun e => h (List.mem_cons_of_mem c e)
    rw [List.cons_append, splitSlash_cons_of_ne hc, splitSlash_free_append cs rest hcs]

theorem joinSlash_cons (s : List Char) {ss : List (List Char)} (h : ss ≠ []) :
    joinSlash (s :: ss) = s ++ '/' :: joinSlash ss := by
  cases ss with
  | nil => exact absurd rfl h
  | cons t ts => rfl

theorem joinSlash_splitSlash : ∀ cs : List Char, joinSlash (splitSlash cs) = cs
  | [] => rfl
  | c :: cs => by
    have ih := joinSlash_splitSlash cs
    by_cases hc : c = '/'
    · rw [hc, splitSlash_slash, joinSlash_cons [] (splitSlash_ne_nil cs), ih]
      rfl
    · rw [splitSlash_cons_of_ne hc]
      cases hs : splitSlash cs with
      | nil => exact absurd hs (splitSlash_ne_nil cs)
      | cons s ss =>
        rw [hs] at ih
        simp only
        cases ss with
        | nil =>
          simp only [joinSlash] at ih ⊢
          rw [ih]
        | cons t ts =>
          simp only [joinSlash] at ih ⊢
          rw [← ih]
          rfl

theorem splitSlash_free : ∀ (cs : List Char), ∀ s ∈ splitSlash cs, '/' ∉ s
  | [], s, hs => by
    simp only [splitSlash, List.mem_singleton] at hs
    subst hs
    simp
  | c :: cs, s, hs => by
    have ih := splitSlash_free cs
    by_cases hc : c = '/'
    · rw [hc, splitSlash_slash] at hs
      rcases List.mem_cons.mp hs with rfl | hs
      · simp
      · exact ih s hs
    · rw [splitSlash_cons_of_ne hc] at hs
      cases hsp : splitSlash cs with
      | nil => exact absurd hsp (splitSlash_ne_nil cs)
      | cons t ts =>
        rw [hsp] at hs ih
        simp only at hs
        rcases List.mem_cons.mp hs with rfl | hs
        · intro hmem
          rcases List.mem_cons.mp hmem with e | e
          · exact hc e.symm
          · exact ih t (List.mem_cons_self t ts) e
        · exact ih s (List.mem_cons_of_mem t hs)

theorem splitSlash_joinSlash : ∀ (segs : List (List Char)), segs ≠ [] →
    (∀ s ∈ segs, '/' ∉ s) → splitSlash (joinSlash segs) = segs
  | [], h, _ => absurd rfl h
  | [s], _, hf => by
    simp only [joinSlash]
    exact splitSlash_of_free s (hf s (List.mem_singleton_self s))
  | s :: t :: ss, _, hf => by
    simp only [joinSlash]
    rw [splitSlash_free_append s _ (hf s (List.mem_cons_self s _)),
      splitSlash_joinSlash (t :: ss) (List.cons_ne_nil t ss)
        (fun u hu => hf u (List.mem_cons_of_mem s hu))]

theorem joinSlash_append : ∀ (xs ys : List (List Char)), xs ≠ [] → ys ≠ [] →
    joinSlash (xs ++ ys) = joinSlash xs ++ '/' :: joinSlash ys
  | [], _, h, _ => absurd rfl h
  | [s], ys, _, hy => by
    rw [List.singleton_append, joinSlash_cons s hy]
    rfl
  | s :: t :: ss, ys, _, hy => by
    have ih := joinSlash_append (t :: ss) ys (List.cons_ne_nil t ss) hy
    rw [List.cons_append, joinSlash_cons s (by simp), ih,
      joinSlash_cons s (List.cons_ne_nil t ss)]
    simp

theorem pullManifestPath_chars (segs : List (List Char)) (hsegs : segs ≠ [])
    (word reference : List Char) :
    joinSlash ([] :: ['v', '2'] :: (segs ++ [word, reference])) =
      ['/', 'v', '2', '/'] ++ joinSlash segs ++ ('/' :: word) ++ ('/' :: reference) := by
  rw [joinSlash_cons [] (by simp), joinSlash_cons ['v', '2'] (by simp),
    joinSlash_append segs [word, reference] hsegs (by simp)]
  simp [joinSlash]

theorem pullManifestPath_data (repo reference : String) :
    ("/v2/" ++ repo ++ "/manifests/" ++ reference).data =
      ['/', 'v', '2', '/'] ++ repo.data ++ ('/' :: ['m', 'a', 'n', 'i', 'f', 'e', 's', 't', 's']) ++
        ('/' :: reference.data) := by
  simp [String.data_append]

theorem MatchPullManifest_of_segments (req : Request) (segs : List (List Char))
    (reference : List Char) (hm : req.Method = "GET") (hsegs : segs ≠ [])
    (hfree : ∀ s ∈ segs, s ≠ [] ∧ '/' ∉ s) (hr : reference ≠ []) (hrf : '/' ∉ reference)
    (hp : req.URL.Path.data =
      joinSlash ([] :: ['v', '2'] :: (segs ++ [['m', 'a', 'n', 'i', 'f', 'e', 's', 't', 's'], reference]))) :
    MatchPullManifest req = (true, String.mk (joinSlash segs), String.mk reference) := by
  have hall : ∀ s ∈ ([] :: ['v', '2'] :: (segs ++ [['m', 'a', 'n', 'i', 'f', 'e', 's', 't', 's'], reference])),
      '/' ∉ s := by
    intro s hs
    simp only [List.mem_cons, List.mem_append, List.mem_singleton, List.not_mem_nil,
      or_false] at hs
    rcases hs with rfl | rfl | hs | rfl | rfl
    · simp
    · decide
    · exact (hfree s hs).2
    · decide
    · exact hrf
  have hsplit := splitSlash_joinSlash _ (by simp) hall
  rw [← hp] at hsplit
  have hrev : (segs ++ [['m', 'a', 'n', 'i', 'f', 'e', 's', 't', 's'], reference]).reverse =
      reference :: ['m', 'a', 'n', 'i', 'f', 'e', 's', 't', 's'] :: segs.reverse := by simp
  unfold MatchPullManifest
  rw [if_neg (by simp [hm]), hsplit]
  simp only []
  rw [if_pos True.intro, hrev]
  simp only []
  rw [if_pos ⟨trivial, by simpa using hsegs,
    fun s hs => (hfree s (List.mem_reverse.mp hs)).1, hr⟩, List.reverse_reverse]

theorem MatchPullManifest_true (req : Request) (h : (MatchPullManifest req).1 = true) :
    req.Method = "GET" ∧
    ∃ (segs : List (List Char)) (reference : List Char), segs ≠ [] ∧
      (∀ s ∈ segs, s ≠ [] ∧ '/' ∉ s) ∧ reference ≠ [] ∧ '/' ∉ reference ∧
      req.URL.Path.data =
        joinSlash ([] :: ['v', '2'] :: (segs ++ [['m', 'a', 'n', 'i', 'f', 'e', 's', 't', 's'], reference])) ∧
      MatchPullManifest req = (true, String.mk (joinSlash segs), String.mk reference) := by
  have hfreeAll := splitSlash_free req.URL.Path.data
  have hjoin := joinSlash_splitSlash req.URL.Path.data
  unfold MatchPullManifest at h ⊢
  by_cases hm : req.Method = "GET"
  · refine ⟨hm, ?_⟩
    rw [if_neg (by simp [hm])] at h ⊢
    cases hs : splitSlash req.URL.Path.data with
    | nil => simp [hs] at h
    | cons first more =>
      cases first with
      | cons c cs => simp [hs] at h
      | nil =>
        cases more with
        | nil => simp [hs] at h
        | cons version rest =>
          rw [hs] at h hfreeAll hjoin
          simp only at h ⊢
          by_cases hv : version = ['v', '2']
          · rw [if_pos hv] at h ⊢
            cases hrev : rest.reverse with
            | nil => simp [hrev] at h
            | cons reference more2 =>
              cases more2 with
              | nil => simp [hrev] at h
              | cons word repository =>
                simp only at h ⊢
                by_cases hc : word = ['m', 'a', 'n', 'i', 'f', 'e', 's', 't', 's'] ∧ repository ≠ [] ∧
                    (∀ s ∈ repository, s ≠ []) ∧ reference ≠ []
                · rw [if_pos hc]
                  have hrest : rest = repository.reverse ++ [word, reference] := by
                    have := congrArg List.reverse hrev
                    simpa using this
                  refine ⟨repository.reverse, reference, by simpa using hc.2.1, ?_,
                    hc.2.2.2, ?_, ?_, rfl⟩
                  · intro s hs2
                    refine ⟨hc.2.2.1 s (List.mem_reverse.mp hs2), ?_⟩
                    apply hfreeAll s
                    rw [hrest]
                    simp [hs2]
                  · apply hfreeAll reference
                    rw [hrest]
                    simp
                  · rw [← hjoin, hv, hrest, hc.1]
                · rw [hrev] at h
                  simp only [] at h
                  rw [if_neg hc] at h
                  simp at h
          · rw [if_neg hv] at h
            simp at h
  · rw [if_pos (by simpa using hm)] at h
    simp at h

/-- The requests of `TestMatchPullManifest` (lines 52-91) and the answers the test
asserts. -/
theorem MatchPullManifest_test_requests :
    (MatchPullManifest (newRequest "POST" "http" "127.0.0.1:5000"
      "/v2/library/ubuntu/manifests/14.04")).1 = false ∧
    MatchPullManifest (newRequest "GET" "http" "192.168.0.3:80"
      "/v2/library/ubuntu/manifests/14.04") = (true, "library/ubuntu", "14.04") ∧
    (MatchPullManifest (newRequest "GET" "https" "192.168.0.5:443"
      "/v1/library/ubuntu/manifests/14.04")).1 = false ∧
    MatchPullManifest (newRequest "GET" "https" "192.168.0.5"
      "/v2/library/ubuntu/manifests/14.04") = (true, "library/ubuntu", "14.04") ∧
    MatchPullManifest (newRequest "GET" "https" "myregistry.com"
      "/v2/path1/path2/golang/manifests/1.6.2") = (true, "path1/path2/golang", "1.6.2") ∧
    MatchPullManifest (newRequest "GET" "https" "myregistry.com"
      "/v2/myproject/registry/manifests/sha256:ca4626b691f57d16ce1576231e4a2e2135554d32e13a85dcff380d51fdd13f6a") =
      (true, "myproject/registry",
        "sha256:ca4626b691f57d16ce1576231e4a2e2135554d32e13a85dcff380d51fdd13f6a") ∧
    MatchPullManifest (newRequest "GET" "https" "myregistry.com"
      "/v2/myproject/manifests/sha256:ca4626b691f57d16ce1576231e4a2e2135554d32e13a85dcff380d51fdd13f6a") =
      (true, "myproject",
        "sha256:ca4626b691f57d16ce1576231e4a2e2135554d32e13a85dcff380d51fdd13f6a") := by
  decide

/-- C12: `MatchPullManifest` answers `(true, repository, reference)` for a GET request
whose path is `/v2/`, one or more non-empty segments, `/manifests/` and one non-empty
segment, the repository being all the segments before the final `/manifests/` joined
by `/` and the reference the last segment; it answers true for no other request; it
answers `(false, "", "")` for every method other than GET and for every path that
starts with `/v1/`; and its answer does not depend on scheme, host or port. -/
theorem MatchPullManifest_pull_manifest (req : Request) :
    (∀ (segs : List String) (reference : String), req.Method = "GET" → segs ≠ [] →
      (∀ s ∈ segs, s ≠ "" ∧ '/' ∉ s.data) → reference ≠ "" → '/' ∉ reference.data →
      req.URL.Path = "/v2/" ++ joinPath segs ++ "/manifests/" ++ reference →
      MatchPullManifest req = (true, joinPath segs, reference)) ∧
    ((MatchPullManifest req).1 = true →
      req.Method = "GET" ∧
      ∃ (segs : List String) (reference : String), segs ≠ [] ∧
        (∀ s ∈ segs, s ≠ "" ∧ '/' ∉ s.data) ∧ reference ≠ "" ∧ '/' ∉ reference.data ∧
        req.URL.Path = "/v2/" ++ joinPath segs ++ "/manifests/" ++ reference ∧
        MatchPullManifest req = (true, joinPath segs, reference)) ∧
    (req.Method ≠ "GET" → MatchPullManifest req = (false, "", "")) ∧
    (∀ rest : String, req.URL.Path = "/v1/" ++ rest →
      MatchPullManifest req = (false, "", "")) ∧
    (∀ scheme host : String,
      MatchPullManifest
          { req with URL := { req.URL with Scheme := scheme, Host := host } } =
        MatchPullManifest req) := by
  refine ⟨?_, ?_, ?_, ?_, ?_⟩
  · intro segs reference hm hsegs hfree hr hrf hp
    have hne : ∀ s : String, s ≠ "" → s.data ≠ [] := by
      intro s hs hd
      exact hs (String.ext hd)
    have h := MatchPullManifest_of_segments req (segs.map String.data) reference.data hm
      (by simpa using hsegs)
      (by
        intro s hs
        obtain ⟨u, hu, rfl⟩ := List.mem_map.mp hs
        exact ⟨hne u (hfree u hu).1, (hfree u hu).2⟩)
      (hne reference hr) hrf
      (by
        rw [hp, pullManifestPath_data, pullManifestPath_chars _ (by simpa using hsegs)]
        rfl)
    exact h
  · intro h
    obtain ⟨hm, segs, reference, hsegs, hfree, hr, hrf, hp, hres⟩ :=
      MatchPullManifest_true req h
    refine ⟨hm, segs.map String.mk, String.mk reference, by simpa using hsegs, ?_, ?_, hrf,
      ?_, ?_⟩
    · intro s hs
      obtain ⟨u, hu, rfl⟩ := List.mem_map.mp hs
      refine ⟨?_, (hfree u hu).2⟩
      intro he
      exact (hfree u hu).1 (congrArg String.data he)
    · intro he
      exact hr (congrArg String.data he)
    · have hmap : (segs.map String.mk).map String.data = segs := by
        rw [List.map_map]
        exact List.map_id _
      apply String.ext
      rw [pullManifestPath_data, hp, pullManifestPath_chars _ hsegs]
      simp only [joinPath, hmap]
    · have hmap : (segs.map String.mk).map String.data = segs := by
        rw [List.map_map]
        exact List.map_id _
      rw [hres]
      simp only [joinPath, hmap]
  · intro hm
    unfold MatchPullManifest
    rw [if_pos hm]
  · intro rest hp
    have hd : req.URL.Path.data = '/' :: (['v', '1'] ++ '/' :: rest.data) := by
      rw [hp, String.data_append]
      rfl
    unfold MatchPullManifest
    by_cases hm : req.Method ≠ "GET"
    · rw [if_pos hm]
    · rw [if_neg hm, hd, splitSlash_slash, splitSlash_free_append _ _ (by decide)]
      simp
  · intro scheme host
    rfl

theorem MatchPullManifest_pull_manifest_witness :
    MatchPullManifest (newRequest "GET" "https" "myregistry.com:5000"
        "/v2/path1/path2/golang/manifests/1.6.2") =
      (true, joinPath ["path1", "path2", "golang"], "1.6.2") ∧
    MatchPullManifest (newRequest "HEAD" "https" "myregistry.com:5000"
        "/v2/path1/path2/golang/manifests/1.6.2") = (false, "", "") ∧
    MatchPullManifest (newRequest "GET" "https" "myregistry.com:5000"
        "/v1/path1/path2/golang/manifests/1.6.2") = (false, "", "") :=
  ⟨(MatchPullManifest_pull_manifest (newRequest "GET" "https" "myregistry.com:5000"
      "/v2/path1/path2/golang/manifests/1.6.2")).1 ["path1", "path2", "golang"] "1.6.2"
      rfl (by decide) (by decide) (by decide) (by decide) (by decide),
   (MatchPullManifest_pull_manifest (newRequest "HEAD" "https" "myregistry.com:5000"
      "/v2/path1/path2/golang/manifests/1.6.2")).2.2.1 (by decide),
   (MatchPullManifest_pull_manifest (newRequest "GET" "https" "myregistry.com:5000"
      "/v1/path1/path2/golang/manifests/1.6.2")).2.2.2.1 "path1/path2/golang/manifests/1.6.2"
      (by decide)⟩

/-- The calls of `TestMatchNotaryDigest` (lines 129-143) and the answers the test
asserts. -/
theorem matchNotaryDigest_test_calls :
    matchNotaryDigest (tableEnv true false busyboxTargets [] []) "admin"
        ⟨"notary-demo/busybox", "1.0", "notary-demo"⟩
        "sha256:1359608115b94599e5641638bac5aef1ddfaa79bb96057ebf41ebc8d33acf8a7" =
      (true, none) ∧
    matchNotaryDigest (tableEnv true false busyboxTargets [] []) "admin"
        ⟨"notary-demo/busybox", "1.0", "notary-demo"⟩
        "sha256:1359608115b94599e5641638bac5aef1ddfaa79bb96057ebf41ebc8d33acf8a8" =
      (false, none) ∧
    matchNotaryDigest (tableEnv true false busyboxTargets [] []) "admin"
        ⟨"notary-demo/busybox", "2.0", "notary-demo"⟩
        "sha256:1359608115b94599e5641638bac5aef1ddfaa79bb96057ebf41ebc8d33acf8a7" =
      (false, none) := by
  decide

theorem keyByDigest_ok (env : Env) :
    ∀ targets : List Target, (∀ t ∈ targets, ∃ d, env.DigestFromTarget t = .ok d) →
      ∃ keyed, keyByDigest env targets = .ok keyed ∧
        ∀ (d : String) (t : Target),
          (d, t) ∈ keyed ↔ t ∈ targets ∧ env.DigestFromTarget t = .ok d
  | [], _ => ⟨[], rfl, by simp⟩
  | u :: rest, hdec => by
    obtain ⟨du, hu⟩ := hdec u (List.mem_cons_self u rest)
    obtain ⟨keyed, hk, hmem⟩ := keyByDigest_ok env rest
      (fun v hv => hdec v (List.mem_cons_of_mem u hv))
    refine ⟨(du, u) :: keyed, by simp only [keyByDigest, hu, hk], ?_⟩
    intro d t
    rw [List.mem_cons, hmem d t, List.mem_cons]
    constructor
    · rintro (h | ⟨h1, h2⟩)
      · simp only [Prod.mk.injEq] at h
        rw [h.1, h.2]
        exact ⟨Or.inl rfl, hu⟩
      · exact ⟨Or.inr h1, h2⟩
    · rintro ⟨h1 | h1, h2⟩
      · left
        rw [h1] at h2 ⊢
        rw [hu] at h2
        rw [Except.ok.inj h2]
      · exact Or.inr ⟨h1, h2⟩

theorem keyByDigest_error (env : Env) :
    ∀ (targets : List Target) (t : Target) (err : GoError), t ∈ targets →
      env.DigestFromTarget t = .error err → ∃ e, keyByDigest env targets = .error e
  | [], _, _, h, _ => by simp at h
  | u :: rest, t, err, hin, ht => by
    cases hu : env.DigestFromTarget u with
    | error e => exact ⟨e, by simp only [keyByDigest, hu]⟩
    | ok d =>
      rcases List.mem_cons.mp hin with rfl | hin
      · rw [ht] at hu
        exact Except.noConfusion hu
      · obtain ⟨e, he⟩ := keyByDigest_error env rest t err hin ht
        exact ⟨e, by simp only [keyByDigest, hu, he]⟩

theorem matchNotaryDigest_of_tag (env : Env) (actor : String) (img : imageInfo)
    (digest : String) (targets : List Target)
    (hT : env.GetInternalTargets env.InternalNotaryEndpoint actor img.repository =
      .ok targets)
    (hdec : ∀ t ∈ targets, ∃ d, env.DigestFromTarget t = .ok d)
    (href : isDigestReference img.reference = false) :
    (matchNotaryDigest env actor img digest).2 = none ∧
    ((matchNotaryDigest env actor img digest).1 = true ↔
      ∃ t ∈ targets, env.DigestFromTarget t = .ok digest ∧ t.Tag = img.reference) := by
  obtain ⟨keyed, hk, hmem⟩ := keyByDigest_ok env targets hdec
  simp only [matchNotaryDigest, hT, hk, href, Bool.false_eq_true, if_false, true_and,
    List.any_eq_true, decide_eq_true_eq]
  constructor
  · rintro ⟨⟨d, t⟩, hp, hd, ht⟩
    obtain ⟨hin, hdt⟩ := (hmem d t).mp hp
    simp only at hd ht
    exact ⟨t, hin, by rw [hdt, hd], ht⟩
  · rintro ⟨t, hin, hdt, ht⟩
    exact ⟨(digest, t), (hmem digest t).mpr ⟨hin, hdt⟩, rfl, ht⟩

theorem matchNotaryDigest_false_of_tag (env : Env) (actor : String) (img : imageInfo)
    (digest : String) (targets : List Target)
    (hT : env.GetInternalTargets env.InternalNotaryEndpoint actor img.repository =
      .ok targets)
    (hdec : ∀ t ∈ targets, ∃ d, env.DigestFromTarget t = .ok d)
    (href : isDigestReference img.reference = false)
    (hno : ¬ ∃ t ∈ targets, env.DigestFromTarget t = .ok digest ∧ t.Tag = img.reference) :
    matchNotaryDigest env actor img digest = (false, none) := by
  obtain ⟨h2, h1⟩ := matchNotaryDigest_of_tag env actor img digest targets hT hdec href
  have hf : (matchNotaryDigest env actor img digest).1 = false := by
    cases hb : (matchNotaryDigest env actor img digest).1 with
    | false => rfl
    | true => exact absurd (h1.mp hb) hno
  exact Prod.ext hf h2

/-- The other cases of the modelled matcher: an error of the trust service and an
undecodable target give an error; for a reference that is a digest, the answer is
whether some target has the digest, whatever its tag. -/
theorem matchNotaryDigest_other_cases (env : Env) (actor : String) (img : imageInfo)
    (digest : String) :
    (∀ err, env.GetInternalTargets env.InternalNotaryEndpoint actor img.repository =
        .error err → matchNotaryDigest env actor img digest = (false, some err)) ∧
    (∀ targets t err,
      env.GetInternalTargets env.InternalNotaryEndpoint actor img.repository =
        .ok targets → t ∈ targets → env.DigestFromTarget t = .error err →
      ∃ e, matchNotaryDigest env actor img digest = (false, some e)) ∧
    (∀ targets,
      env.GetInternalTargets env.InternalNotaryEndpoint actor img.repository =
        .ok targets → (∀ t ∈ targets, ∃ d, env.DigestFromTarget t = .ok d) →
      isDigestReference img.reference = true →
      (matchNotaryDigest env actor img digest).2 = none ∧
      ((matchNotaryDigest env actor img digest).1 = true ↔
        ∃ t ∈ targets, env.DigestFromTarget t = .ok digest)) := by
  refine ⟨?_, ?_, ?_⟩
  · intro err hT
    simp only [matchNotaryDigest, hT]
  · intro targets t err hT hin ht
    obtain ⟨e, he⟩ := keyByDigest_error env targets t err hin ht
    exact ⟨e, by simp only [matchNotaryDigest, hT, he]⟩
  · intro targets hT hdec href
    obtain ⟨keyed, hk, hmem⟩ := keyByDigest_ok env targets hdec
    simp only [matchNotaryDigest, hT, hk, href, if_true, true_and, List.any_eq_true,
      decide_eq_true_eq]
    constructor
    · rintro ⟨⟨d, t⟩, hp, hd⟩
      obtain ⟨hin, hdt⟩ := (hmem d t).mp hp
      simp only at hd
      exact ⟨t, hin, by rw [hdt, hd]⟩
    · rintro ⟨t, hin, hdt⟩
      exact ⟨(digest, t), (hmem digest t).mpr ⟨hin, hdt⟩, rfl⟩

/-- C13: when the trust service answers for the image's repository with targets whose
digests can be decoded, and the image's reference is a tag, `matchNotaryDigest(img,
digest)` returns no error and returns true if and only if one of the targets has the
digest `digest` and the tag name `img.reference`.  A target that matches the pair
matches no pair that differs from it in the digest alone or in the tag alone; the
function returns false, without error, for a changed pair that no target carries, and
so for every such change when the matching target is the only target. -/
theorem matchNotaryDigest_matches (env : Env) (actor : String) (img : imageInfo)
    (digest : String) (targets : List Target)
    (hT : env.GetInternalTargets env.InternalNotaryEndpoint actor img.repository =
      .ok targets)
    (hdec : ∀ t ∈ targets, ∃ d, env.DigestFromTarget t = .ok d)
    (href : isDigestReference img.reference = false) :
    (matchNotaryDigest env actor img digest).2 = none ∧
    ((matchNotaryDigest env actor img digest).1 = true ↔
      ∃ t ∈ targets, env.DigestFromTarget t = .ok digest ∧ t.Tag = img.reference) ∧
    (∀ t ∈ targets, env.DigestFromTarget t = .ok digest → t.Tag = img.reference →
      targetMatches env t img.reference digest = .ok true ∧
      (∀ other : String, other ≠ digest →
        targetMatches env t img.reference other = .ok false) ∧
      (∀ other : String, other ≠ img.reference →
        targetMatches env t other digest = .ok false)) ∧
    (∀ other : String,
      (¬ ∃ t ∈ targets, env.DigestFromTarget t = .ok other ∧ t.Tag = img.reference) →
      matchNotaryDigest env actor img other = (false, none)) ∧
    (∀ other : String, isDigestReference other = false →
      (¬ ∃ t ∈ targets, env.DigestFromTarget t = .ok digest ∧ t.Tag = other) →
      matchNotaryDigest env actor { img with reference := other } digest = (false, none)) ∧
    (∀ t : Target, targets = [t] → env.DigestFromTarget t = .ok digest →
      t.Tag = img.reference →
      matchNotaryDigest env actor img digest = (true, none) ∧
      (∀ other : String, other ≠ digest →
        matchNotaryDigest env actor img other = (false, none)) ∧
      (∀ other : String, other ≠ img.reference → isDigestReference other = false →
        matchNotaryDigest env actor { img with reference := other } digest =
          (false, none))) := by
  obtain ⟨h2, h1⟩ := matchNotaryDigest_of_tag env actor img digest targets hT hdec href
  have hdig : ∀ other : String,
      (¬ ∃ t ∈ targets, env.DigestFromTarget t = .ok other ∧ t.Tag = img.reference) →
      matchNotaryDigest env actor img other = (false, none) :=
    fun other hno =>
      matchNotaryDigest_false_of_tag env actor img other targets hT hdec href hno
  have htag : ∀ other : String, isDigestReference other = false →
      (¬ ∃ t ∈ targets, env.DigestFromTarget t = .ok digest ∧ t.Tag = other) →
      matchNotaryDigest env actor { img with reference := other } digest = (false, none) :=
    fun other ho hno =>
      matchNotaryDigest_false_of_tag env actor { img with reference := other } digest
        targets hT hdec ho hno
  refine ⟨h2, h1, ?_, hdig, htag, ?_⟩
  · intro t _ hd ht
    refine ⟨?_, ?_, ?_⟩
    · simp only [targetMatches, hd, ht, and_self, decide_True]
    · intro other hne
      have hne2 : ¬ (digest = other ∧ t.Tag = img.reference) := fun h => hne h.1.symm
      simp only [targetMatches, hd, hne2, decide_False]
    · intro other hne
      have hne2 : ¬ (t.Tag = other) := fun h => hne (by rw [← h, ht])
      simp only [targetMatches, hd, hne2, and_false, decide_False]
  · intro t hts hd ht
    subst hts
    refine ⟨?_, ?_, ?_⟩
    · have hb : (matchNotaryDigest env actor img digest).1 = true :=
        h1.mpr ⟨t, List.mem_singleton_self t, hd, ht⟩
      exact Prod.ext hb h2
    · intro other hne
      apply hdig
      rintro ⟨u, hu, hud, _⟩
      rw [List.mem_singleton.mp hu, hd] at hud
      exact hne (Except.ok.inj hud).symm
    · intro other hne ho
      apply htag other ho
      rintro ⟨u, hu, _, hut⟩
      rw [List.mem_singleton.mp hu] at hut
      exact hne (by rw [← hut, ht])

theorem matchNotaryDigest_matches_witness :
    (matchNotaryDigest (tableEnv true false busyboxTargets [] []) "admin"
        ⟨"notary-demo/busybox", "1.0", "notary-demo"⟩
        "sha256:1359608115b94599e5641638bac5aef1ddfaa79bb96057ebf41ebc8d33acf8a7").2 = none ∧
    matchNotaryDigest (tableEnv true false busyboxTargets [] []) "admin"
        ⟨"notary-demo/busybox", "1.0", "notary-demo"⟩
        "sha256:1359608115b94599e5641638bac5aef1ddfaa79bb96057ebf41ebc8d33acf8a8" =
      (false, none) ∧
    matchNotaryDigest (tableEnv true false busyboxTargets [] []) "admin"
        { (⟨"notary-demo/busybox", "1.0", "notary-demo"⟩ : imageInfo) with
          reference := "2.0" }
        "sha256:1359608115b94599e5641638bac5aef1ddfaa79bb96057ebf41ebc8d33acf8a7" =
      (false, none) :=
  ⟨(matchNotaryDigest_matches (tableEnv true false busyboxTargets [] []) "admin"
      ⟨"notary-demo/busybox", "1.0", "notary-demo"⟩
      "sha256:1359608115b94599e5641638bac5aef1ddfaa79bb96057ebf41ebc8d33acf8a7"
      busyboxTargets rfl
      (by
        intro t ht
        simp only [busyboxTargets, List.mem_cons, List.mem_singleton, List.not_mem_nil,
          or_false] at ht
        rcases ht with rfl | rfl
        · exact ⟨_, rfl⟩
        · exact ⟨_, rfl⟩)
      (by decide)).1,
   (matchNotaryDigest_matches (tableEnv true false busyboxTargets [] []) "admin"
      ⟨"notary-demo/busybox", "1.0", "notary-demo"⟩
      "sha256:1359608115b94599e5641638bac5aef1ddfaa79bb96057ebf41ebc8d33acf8a7"
      busyboxTargets rfl
      (by
        intro t ht
        simp only [busyboxTargets, List.mem_cons, List.mem_singleton, List.not_mem_nil,
          or_false] at ht
        rcases ht with rfl | rfl
        · exact ⟨_, rfl⟩
        · exact ⟨_, rfl⟩)
      (by decide)).2.2.2.1
      "sha256:1359608115b94599e5641638bac5aef1ddfaa79bb96057ebf41ebc8d33acf8a8"
      (by decide),
   (matchNotaryDigest_matches (tableEnv true false busyboxTargets [] []) "admin"
      ⟨"notary-demo/busybox", "1.0", "notary-demo"⟩
      "sha256:1359608115b94599e5641638bac5aef1ddfaa79bb96057ebf41ebc8d33acf8a7"
      busyboxTargets rfl
      (by
        intro t ht
        simp only [busyboxTargets, List.mem_cons, List.mem_singleton, List.not_mem_nil,
          or_false] at ht
        rcases ht with rfl | rfl
        · exact ⟨_, rfl⟩
        · exact ⟨_, rfl⟩)
      (by decide)).2.2.2.2.1 "2.0" (by decide) (by decide)⟩

end Harbor
